import Mathlib

/-!
Shallow embedding of the `ome` order-matching engine
(`src/order.rs`, `src/orderbook.rs`, `src/matchingengine.rs`)
and verification of its specification claims.

Modelling conventions:
* `u64` prices/quantities/timestamps become `Nat` (the source only compares
  them and subtracts `trade_quantity`, which is bounded by the minuend, so no
  wrap-around is reachable).
* `BTreeMap<Price, Vec<Order>>` becomes a key-sorted association list
  `List (Nat × List Order)`; `HashMap<OrderId, _>` becomes an association list
  with replace-on-insert semantics.
* The `loop` in `MatchingEngine::submit_order` becomes a fuel-indexed
  recursion; `unwrap` on a failed pop becomes an explicit `panicked` outcome
  and fuel exhaustion an `outOfFuel` outcome, so that the absence of both is a
  theorem rather than an assumption.
-/

namespace Ome

/-- `Side` from `src/order.rs`. -/
inductive Side where
  | buy
  | sell
deriving DecidableEq

/-- `OrderType` from `src/order.rs`. -/
inductive OrderType where
  | limit
  | market
deriving DecidableEq

/-- `Order` from `src/order.rs` (field order as in the struct). -/
structure Order where
  id : String
  quantity : Nat
  price : Nat
  timestamp : Nat
  side : Side
  order_type : OrderType
deriving DecidableEq

/-- `Order::can_match` from `src/order.rs` lines 50-69. -/
def Order.can_match (o other : Order) : Bool :=
  if o.side = other.side then
    false
  else
    match o.order_type, other.order_type with
    | OrderType.limit, OrderType.limit =>
      if o.side = Side.buy then
        decide (other.price ≤ o.price)
      else
        decide (o.price ≤ other.price)
    | _, _ => true

/-- `Trade` from `src/order.rs`. -/
structure Trade where
  buy_order_id : String
  sell_order_id : String
  price : Nat
  quantity : Nat
deriving DecidableEq

/-- A priced side of the book: the model of `BTreeMap<Price, Vec<Order>>`,
kept as an association list sorted by strictly increasing price key. -/
abbrev PriceMap := List (Nat × List Order)

/-- `OrderBook` from `src/orderbook.rs`: `bids`, `asks` and the
`order_map : HashMap<OrderId, (Quantity, Price, Side)>` index. -/
structure OrderBook where
  bids : PriceMap
  asks : PriceMap
  order_map : List (String × (Nat × Nat × Side))
deriving DecidableEq

/-- `OrderBook::new`. -/
def OrderBook.new : OrderBook := ⟨[], [], []⟩

/-- The queue insertion of `OrderBook::add_order`: insert before the first
element whose timestamp is strictly greater
(`position(|ele| ele.timestamp > order.timestamp).unwrap_or(queue.len())`). -/
def insertByTimestamp (o : Order) : List Order → List Order
  | [] => [o]
  | x :: xs =>
    if o.timestamp < x.timestamp then o :: x :: xs
    else x :: insertByTimestamp o xs

/-- `BTreeMap::entry(price).or_insert_with(Vec::new)` followed by the
timestamp-position insert, on the sorted association list. -/
def levelInsert (p : Nat) (o : Order) : PriceMap → PriceMap
  | [] => [(p, [o])]
  | (k, q) :: rest =>
    if p < k then (p, [o]) :: (k, q) :: rest
    else if p = k then (k, insertByTimestamp o q) :: rest
    else (k, q) :: levelInsert p o rest

/-- `HashMap::insert` (replace the entry for the key, or append). -/
def mapInsert (id : String) (v : Nat × Nat × Side) :
    List (String × (Nat × Nat × Side)) → List (String × (Nat × Nat × Side))
  | [] => [(id, v)]
  | (k, w) :: rest =>
    if k = id then (id, v) :: rest else (k, w) :: mapInsert id v rest

/-- `HashMap::get`. -/
def mapGet (id : String) :
    List (String × (Nat × Nat × Side)) → Option (Nat × Nat × Side)
  | [] => none
  | (k, w) :: rest => if k = id then some w else mapGet id rest

/-- `HashMap::remove`. -/
def mapRemove (id : String) :
    List (String × (Nat × Nat × Side)) → List (String × (Nat × Nat × Side))
  | [] => []
  | (k, w) :: rest => if k = id then rest else (k, w) :: mapRemove id rest

/-- `BTreeMap::get` on the sorted association list. -/
def btreeGet (p : Nat) : PriceMap → Option (List Order)
  | [] => none
  | (k, q) :: rest => if k = p then some q else btreeGet p rest

/-- Replace the queue stored at an existing key (`get_mut` + in-place edit). -/
def btreeSet (p : Nat) (q : List Order) : PriceMap → PriceMap
  | [] => []
  | (k, w) :: rest =>
    if k = p then (k, q) :: rest else (k, w) :: btreeSet p q rest

/-- `OrderBook::add_order` from `src/orderbook.rs` lines 24-58: queue insert on
the side of the order, then unconditional `order_map.insert`. -/
def OrderBook.add_order (b : OrderBook) (o : Order) : OrderBook :=
  match o.side with
  | Side.buy =>
    { b with
      bids := levelInsert o.price o b.bids
      order_map := mapInsert o.id (o.quantity, o.price, o.side) b.order_map }
  | Side.sell =>
    { b with
      asks := levelInsert o.price o b.asks
      order_map := mapInsert o.id (o.quantity, o.price, o.side) b.order_map }

/-- The `pop_best_sell` loop on `asks`: take the minimum key
(`first_key_value`); if its queue is empty, remove the level and retry;
otherwise remove and return the queue front. -/
def popBestLow : PriceMap → Option Order × PriceMap
  | [] => (none, [])
  | (_, []) :: rest => popBestLow rest
  | (k, o :: os) :: rest => (some o, (k, os) :: rest)

/-- The `peek_best_sell` loop on `asks`: same traversal as `popBestLow`
(the Rust `peek` also removes empty levels through its `&mut self`), but the
front order is cloned, not removed. -/
def peekBestLow : PriceMap → Option Order × PriceMap
  | [] => (none, [])
  | (_, []) :: rest => peekBestLow rest
  | (k, o :: os) :: rest => (some o, (k, o :: os) :: rest)

/-- The `pop_best_buy` loop on `bids`: take the maximum key
(`last_key_value`); if its queue is empty, remove the level and retry;
otherwise remove and return the queue front. -/
def popBestHigh : PriceMap → Option Order × PriceMap
  | [] => (none, [])
  | (k, q) :: rest =>
    match popBestHigh rest with
    | (some o, m) => (some o, (k, q) :: m)
    | (none, _) =>
      match q with
      | [] => (none, [])
      | o :: os => (some o, [(k, os)])

/-- The `peek_best_buy` loop on `bids`. -/
def peekBestHigh : PriceMap → Option Order × PriceMap
  | [] => (none, [])
  | (k, q) :: rest =>
    match peekBestHigh rest with
    | (some o, m) => (some o, (k, q) :: m)
    | (none, _) =>
      match q with
      | [] => (none, [])
      | o :: os => (some o, [(k, o :: os)])

/-- `OrderBook::pop_best_buy` (lines 79-97). -/
def OrderBook.pop_best_buy (b : OrderBook) : Option Order × OrderBook :=
  let r := popBestHigh b.bids
  (r.1, { b with bids := r.2 })

/-- `OrderBook::peek_best_buy` (lines 60-77). -/
def OrderBook.peek_best_buy (b : OrderBook) : Option Order × OrderBook :=
  let r := peekBestHigh b.bids
  (r.1, { b with bids := r.2 })

/-- `OrderBook::pop_best_sell` (lines 118-136). -/
def OrderBook.pop_best_sell (b : OrderBook) : Option Order × OrderBook :=
  let r := popBestLow b.asks
  (r.1, { b with asks := r.2 })

/-- `OrderBook::peek_best_sell` (lines 99-116). -/
def OrderBook.peek_best_sell (b : OrderBook) : Option Order × OrderBook :=
  let r := peekBestLow b.asks
  (r.1, { b with asks := r.2 })

/-- Remove the first queue element with the given id
(`position(|e| e.id == order_id)` + `remove(ind)`). -/
def removeById (id : String) : List Order → List Order
  | [] => []
  | x :: xs => if x.id = id then xs else x :: removeById id xs

/-- `OrderBook::cancel_order` (lines 138-178): look up `(quantity, price,
side)` in `order_map`, search the queue at that price on that side, remove the
order if found, and drop the index entry only on success. -/
def OrderBook.cancel_order (b : OrderBook) (order_id : String) :
    Bool × OrderBook :=
  match mapGet order_id b.order_map with
  | none => (false, b)
  | some (_, price, side) =>
    match side with
    | Side.buy =>
      match btreeGet price b.bids with
      | none => (false, b)
      | some q =>
        if q.any (fun e => e.id = order_id) then
          (true,
            { b with
              bids := btreeSet price (removeById order_id q) b.bids
              order_map := mapRemove order_id b.order_map })
        else (false, b)
    | Side.sell =>
      match btreeGet price b.asks with
      | none => (false, b)
      | some q =>
        if q.any (fun e => e.id = order_id) then
          (true,
            { b with
              asks := btreeSet price (removeById order_id q) b.asks
              order_map := mapRemove order_id b.order_map })
        else (false, b)

/-- All orders of one side in map-iteration (ascending-key) order; the body of
`get_buy_orders` / `get_sell_orders`. -/
def ordersOf : PriceMap → List Order
  | [] => []
  | (_, q) :: rest => q ++ ordersOf rest

/-- `OrderBook::get_buy_orders` (lines 180-189). -/
def OrderBook.get_buy_orders (b : OrderBook) : List Order := ordersOf b.bids

/-- `OrderBook::get_sell_orders` (lines 190-199). -/
def OrderBook.get_sell_orders (b : OrderBook) : List Order := ordersOf b.asks

/-- `TRADE_POOL_SIZE` from `src/matchingengine.rs`. -/
def TRADE_POOL_SIZE : Nat := 500

/-- `MatchingEngine` state: the book plus the bounded trade tape (the
`VecDeque<Trade>`, head = oldest). -/
structure MatchingEngine where
  order_book : OrderBook
  trades : List Trade
deriving DecidableEq

/-- `MatchingEngine::new`. -/
def MatchingEngine.new : MatchingEngine := ⟨OrderBook.new, []⟩

/-- Outcome of the `loop` in `submit_order`: normal exit, the `unwrap` panic
on a failed pop, or fuel exhaustion of the model. -/
inductive LoopResult where
  | ok (order : Order) (book : OrderBook) (new_trades : List Trade)
  | panicked
  | outOfFuel
deriving DecidableEq

/-- The matching `loop` of `MatchingEngine::submit_order`
(`src/matchingengine.rs` lines 31-87), one constructor case per iteration. -/
def matchLoop : Nat → Order → OrderBook → List Trade → LoopResult
  | 0, _, _, _ => LoopResult.outOfFuel
  | fuel + 1, order, book, new_trades =>
    let peeked :=
      match order.side with
      | Side.buy => book.peek_best_sell
      | Side.sell => book.peek_best_buy
    match peeked with
    | (none, book1) => LoopResult.ok order book1 new_trades
    | (some best_opposing, book1) =>
      if ¬ order.can_match best_opposing then
        LoopResult.ok order book1 new_trades
      else
        let execution_price :=
          match order.order_type, best_opposing.order_type with
          | OrderType.market, _ => best_opposing.price
          | _, OrderType.market => order.price
          | OrderType.limit, OrderType.limit => best_opposing.price
        let trade_quantity := min order.quantity best_opposing.quantity
        let popped :=
          match order.side with
          | Side.buy => book1.pop_best_sell
          | Side.sell => book1.pop_best_buy
        match popped with
        | (none, _) => LoopResult.panicked
        | (some opposing_order, book2) =>
          let trade :=
            match order.side with
            | Side.buy =>
              Trade.mk order.id opposing_order.id execution_price trade_quantity
            | Side.sell =>
              Trade.mk opposing_order.id order.id execution_price trade_quantity
          let order' := { order with quantity := order.quantity - trade_quantity }
          let opposing' :=
            { opposing_order with
              quantity := opposing_order.quantity - trade_quantity }
          let book3 :=
            if 0 < opposing'.quantity then book2.add_order opposing' else book2
          if order'.quantity = 0 then
            LoopResult.ok order' book3 (new_trades ++ [trade])
          else
            matchLoop fuel order' book3 (new_trades ++ [trade])

/-- Number of resting orders on the side opposite the incoming order; one more
than this bounds the number of loop iterations. -/
def oppositeCount (o : Order) (b : OrderBook) : Nat :=
  match o.side with
  | Side.buy => (ordersOf b.asks).length
  | Side.sell => (ordersOf b.bids).length

/-- One bounded append to the trade tape: `pop_front` when the deque is at
`TRADE_POOL_SIZE`, then `push_back`. -/
def pushBounded (tape : List Trade) (t : Trade) : List Trade :=
  (if TRADE_POOL_SIZE ≤ tape.length then tape.tail else tape) ++ [t]

/-- `MatchingEngine::submit_order` (lines 27-106): run the matching loop, rest
the residual limit taker, append the new trades to the bounded tape, and
return them.  `none` marks the two abnormal outcomes of the loop model, both
proved unreachable below. -/
def MatchingEngine.submit_order (e : MatchingEngine) (order : Order) :
    Option (List Trade × MatchingEngine) :=
  match matchLoop (oppositeCount order e.order_book + 1) order e.order_book [] with
  | LoopResult.ok order' book new_trades =>
    let book' :=
      if 0 < order'.quantity ∧ order'.order_type = OrderType.limit then
        book.add_order order'
      else book
    some (new_trades, ⟨book', new_trades.foldl pushBounded e.trades⟩)
  | _ => none

/-- `MatchingEngine::cancel_order` (lines 108-111). -/
def MatchingEngine.cancel_order (e : MatchingEngine) (id : String) :
    Bool × MatchingEngine :=
  let r := e.order_book.cancel_order id
  (r.1, { e with order_book := r.2 })

/-- `MatchingEngine::get_buy_orders` (lines 113-116). -/
def MatchingEngine.get_buy_orders (e : MatchingEngine) : List Order :=
  e.order_book.get_buy_orders

/-- `MatchingEngine::get_sell_orders` (lines 119-122). -/
def MatchingEngine.get_sell_orders (e : MatchingEngine) : List Order :=
  e.order_book.get_sell_orders

/-- One external request to the engine. -/
inductive Op where
  | submit (o : Order)
  | cancel (id : String)

/-- Run a sequence of requests against the engine; `none` would mark a panic
inside some submission. -/
def runOps : List Op → MatchingEngine → Option MatchingEngine
  | [], e => some e
  | Op.submit o :: ops, e =>
    match e.submit_order o with
    | some (_, e') => runOps ops e'
    | none => none
  | Op.cancel id :: ops, e => runOps ops (e.cancel_order id).2

/-! ### Book predicates -/

/-- The keys of a priced side are strictly increasing (the `BTreeMap`
representation invariant). -/
def sortedKeys (m : PriceMap) : Prop := List.Pairwise (fun a b => a.1 < b.1) m

/-- Every order in a level has the level's price as its own price. -/
def pricesMatch (m : PriceMap) : Prop := ∀ l ∈ m, ∀ o ∈ l.2, o.price = l.1

/-- Representation invariant of one side. -/
def WFside (m : PriceMap) : Prop := sortedKeys m ∧ pricesMatch m

/-- Representation invariant of the whole book. -/
def OrderBook.WF (b : OrderBook) : Prop := WFside b.bids ∧ WFside b.asks

/-- Orders are filed on the side matching their `side` field. -/
def OrderBook.SidesOK (b : OrderBook) : Prop :=
  (∀ o ∈ ordersOf b.bids, o.side = Side.buy)
  ∧ (∀ o ∈ ordersOf b.asks, o.side = Side.sell)

/-- Spec P1/I1: every resting buy is strictly below every resting sell. -/
def OrderBook.NoCross (b : OrderBook) : Prop :=
  ∀ o ∈ ordersOf b.bids, ∀ s ∈ ordersOf b.asks, o.price < s.price

/-- Sum of traded quantities. -/
def sumQ (l : List Trade) : Nat := (l.map Trade.quantity).sum

/-- Resting quantity carried by a given id within one side listing. -/
def idQty (id : String) (l : List Order) : Nat :=
  ((l.filter (fun o => o.id = id)).map Order.quantity).sum

/-- Total resting quantity carried by a given id in the book's FIFOs. -/
def OrderBook.qtyOf (b : OrderBook) (id : String) : Nat :=
  idQty id (ordersOf b.bids) + idQty id (ordersOf b.asks)

/-- The maker side of a trade, as `submit_order` assigns the two ids: the
taker's side selects which field carries the taker. -/
def makerIdOf (s : Side) (t : Trade) : String :=
  match s with
  | Side.buy => t.sell_order_id
  | Side.sell => t.buy_order_id

/-- Sum of the quantities of the trades whose maker is the given id. -/
def makerSum (s : Side) (id : String) (l : List Trade) : Nat :=
  sumQ (l.filter (fun t => makerIdOf s t = id))

/-- The resting orders on the side opposite an incoming order. -/
def oppOrders (x : Order) (b : OrderBook) : List Order :=
  match x.side with
  | Side.buy => ordersOf b.asks
  | Side.sell => ordersOf b.bids

instance (b : OrderBook) : Decidable b.WF := by
  unfold OrderBook.WF WFside sortedKeys pricesMatch; infer_instance

instance (b : OrderBook) : Decidable b.SidesOK := by
  unfold OrderBook.SidesOK; infer_instance

instance (b : OrderBook) : Decidable b.NoCross := by
  unfold OrderBook.NoCross; infer_instance

instance (m : PriceMap) : Decidable (sortedKeys m) := by
  unfold sortedKeys; infer_instance

instance (m : PriceMap) : Decidable (pricesMatch m) := by
  unfold pricesMatch; infer_instance

instance (m : PriceMap) : Decidable (WFside m) := by
  unfold WFside; infer_instance

/-- A submission request carries a positive quantity. -/
def Op.qtyPositive : Op → Prop
  | Op.submit o => 0 < o.quantity
  | Op.cancel _ => True

instance : DecidablePred Op.qtyPositive := fun op => by
  cases op with
  | submit o => exact inferInstanceAs (Decidable (0 < o.quantity))
  | cancel id => exact inferInstanceAs (Decidable True)

/-- All submissions in a request sequence carry positive quantity. -/
def submitsPositive (ops : List Op) : Prop := ∀ op ∈ ops, op.qtyPositive

instance (ops : List Op) : Decidable (submitsPositive ops) := by
  unfold submitsPositive; infer_instance

/-- Ascending price with entry-time tie-break: the order in which both
snapshot functions emit a side's orders. -/
def ascendingPriceTime (a b : Order) : Prop :=
  a.price < b.price ∨ (a.price = b.price ∧ a.timestamp ≤ b.timestamp)

/-- Every level's FIFO is sorted by non-decreasing timestamp. -/
def levelsTsSorted (m : PriceMap) : Prop :=
  ∀ l ∈ m, List.Pairwise (fun a b : Order => a.timestamp ≤ b.timestamp) l.2

instance (m : PriceMap) : Decidable (levelsTsSorted m) := by
  unfold levelsTsSorted
  refine List.decidableBAll _ m

/-- Every order resting in a FIFO has its id in `order_map`. -/
def IndexComplete (b : OrderBook) : Prop :=
  ∀ o ∈ ordersOf b.bids ++ ordersOf b.asks,
    (mapGet o.id b.order_map).isSome = true

instance (b : OrderBook) : Decidable (IndexComplete b) := by
  unfold IndexComplete; infer_instance

/-! ### Concrete instances used by witnesses and counterexamples -/

def c1ops : List Op :=
  [Op.submit ⟨"s", 5, 110, 1, Side.sell, OrderType.limit⟩,
   Op.submit ⟨"b", 5, 90, 2, Side.buy, OrderType.limit⟩]

def c1engine : MatchingEngine :=
  ⟨⟨[(90, [⟨"b", 5, 90, 2, Side.buy, OrderType.limit⟩])],
    [(110, [⟨"s", 5, 110, 1, Side.sell, OrderType.limit⟩])],
    [("s", (5, 110, Side.sell)), ("b", (5, 90, Side.buy))]⟩, []⟩

def c2engine : MatchingEngine :=
  ⟨OrderBook.new.add_order ⟨"M", 10, 100, 1, Side.sell, OrderType.limit⟩, []⟩

def c2taker : Order := ⟨"T", 4, 100, 2, Side.buy, OrderType.limit⟩

def c2post : MatchingEngine :=
  ⟨⟨[], [(100, [⟨"M", 6, 100, 1, Side.sell, OrderType.limit⟩])],
    [("M", (6, 100, Side.sell))]⟩,
   [⟨"T", "M", 100, 4⟩]⟩

def c2resid : Order := ⟨"T", 0, 100, 2, Side.buy, OrderType.limit⟩

def c2book : OrderBook :=
  ⟨[], [(100, [⟨"M", 6, 100, 1, Side.sell, OrderType.limit⟩])],
    [("M", (6, 100, Side.sell))]⟩

def c3engine : MatchingEngine :=
  ⟨OrderBook.new.add_order ⟨"N", 10, 100, 1, Side.sell, OrderType.limit⟩, []⟩

def c3taker : Order := ⟨"U", 4, 100, 2, Side.buy, OrderType.limit⟩

def c3post : MatchingEngine :=
  ⟨⟨[], [(100, [⟨"N", 6, 100, 1, Side.sell, OrderType.limit⟩])],
    [("N", (6, 100, Side.sell))]⟩,
   [⟨"U", "N", 100, 4⟩]⟩

def c4book : OrderBook :=
  (OrderBook.new.add_order ⟨"1", 5, 10, 1, Side.buy, OrderType.limit⟩).add_order
    ⟨"2", 5, 200, 2, Side.buy, OrderType.limit⟩

def c5engine : MatchingEngine :=
  ⟨OrderBook.new.add_order ⟨"S", 5, 100, 1, Side.sell, OrderType.limit⟩, []⟩

def c5taker : Order := ⟨"Z", 0, 100, 2, Side.buy, OrderType.limit⟩

def c5post : MatchingEngine :=
  ⟨⟨[], [(100, [⟨"S", 5, 100, 1, Side.sell, OrderType.limit⟩])],
    [("S", (5, 100, Side.sell))]⟩,
   [⟨"Z", "S", 100, 0⟩]⟩

def c6book : OrderBook :=
  OrderBook.new.add_order ⟨"1", 5, 10, 1, Side.buy, OrderType.limit⟩

def c6popped : OrderBook := ⟨[(10, [])], [], [("1", (5, 10, Side.buy))]⟩

def c7book : OrderBook :=
  OrderBook.new.add_order ⟨"7", 3, 10, 1, Side.buy, OrderType.limit⟩

def c7popped : OrderBook := ⟨[(10, [])], [], [("7", (3, 10, Side.buy))]⟩

def c8engine : MatchingEngine :=
  ⟨(OrderBook.new.add_order ⟨"A", 10, 1000, 5, Side.sell, OrderType.limit⟩).add_order
    ⟨"B", 10, 1000, 5, Side.sell, OrderType.limit⟩, []⟩

def c8taker : Order := ⟨"T", 4, 1000, 6, Side.buy, OrderType.limit⟩

def c8post : MatchingEngine :=
  ⟨⟨[], [(1000, [⟨"B", 10, 1000, 5, Side.sell, OrderType.limit⟩,
                 ⟨"A", 6, 1000, 5, Side.sell, OrderType.limit⟩])],
    [("A", (6, 1000, Side.sell)), ("B", (10, 1000, Side.sell))]⟩,
   [⟨"T", "A", 1000, 4⟩]⟩

def c8newOrder : Order := ⟨"C", 2, 1000, 9, Side.sell, OrderType.limit⟩

def c8q : List Order :=
  [⟨"A", 10, 1000, 5, Side.sell, OrderType.limit⟩,
   ⟨"B", 10, 1000, 5, Side.sell, OrderType.limit⟩]

def c10book : OrderBook :=
  OrderBook.new.add_order ⟨"R", 7, 50, 1, Side.sell, OrderType.limit⟩

def c10taker : Order := ⟨"V", 9, 60, 2, Side.buy, OrderType.limit⟩

/-! ### Queue and level lemmas -/

theorem insertByTimestamp_perm (o : Order) (q : List Order) :
    List.Perm (insertByTimestamp o q) (o :: q) := by
  induction q with
  | nil => simp [insertByTimestamp]
  | cons x xs ih =>
    by_cases h : o.timestamp < x.timestamp
    · simp [insertByTimestamp, h]
    · simp only [insertByTimestamp, if_neg h]
      exact (ih.cons x).trans (List.Perm.swap o x xs)

theorem mem_insertByTimestamp {x o : Order} {q : List Order} :
    x ∈ insertByTimestamp o q ↔ x = o ∨ x ∈ q := by
  rw [(insertByTimestamp_perm o q).mem_iff, List.mem_cons]

/-- Inserting an order with an earlier timestamp than the whole queue puts it
at the head. -/
theorem insertByTimestamp_head (o : Order) (q : List Order)
    (h : ∀ x ∈ q, o.timestamp < x.timestamp) :
    insertByTimestamp o q = o :: q := by
  cases q with
  | nil => rfl
  | cons x xs => simp [insertByTimestamp, h x (List.mem_cons_self x xs)]

theorem insertByTimestamp_tsSorted (o : Order) (q : List Order)
    (h : List.Pairwise (fun a b : Order => a.timestamp ≤ b.timestamp) q) :
    List.Pairwise (fun a b : Order => a.timestamp ≤ b.timestamp)
      (insertByTimestamp o q) := by
  induction q with
  | nil => simp [insertByTimestamp]
  | cons x xs ih =>
    rcases List.pairwise_cons.mp h with ⟨hx, hxs⟩
    by_cases hts : o.timestamp < x.timestamp
    · simp only [insertByTimestamp, if_pos hts]
      refine List.pairwise_cons.mpr ⟨?_, h⟩
      intro y hy
      rcases List.mem_cons.mp hy with rfl | hy
      · exact Nat.le_of_lt hts
      · exact Nat.le_trans (Nat.le_of_lt hts) (hx y hy)
    · simp only [insertByTimestamp, if_neg hts]
      refine List.pairwise_cons.mpr ⟨?_, ih hxs⟩
      intro y hy
      rcases mem_insertByTimestamp.mp hy with rfl | hy
      · exact Nat.le_of_not_lt hts
      · exact hx y hy

theorem ordersOf_levelInsert (p : Nat) (o : Order) (m : PriceMap) :
    List.Perm (ordersOf (levelInsert p o m)) (o :: ordersOf m) := by
  induction m with
  | nil => simp [levelInsert, ordersOf]
  | cons l rest ih =>
    obtain ⟨k, q⟩ := l
    by_cases h1 : p < k
    · simp [levelInsert, h1, ordersOf]
    · by_cases h2 : p = k
      · simp only [levelInsert, if_neg h1, if_pos h2, ordersOf]
        exact (insertByTimestamp_perm o q).append_right (ordersOf rest)
      · simp only [levelInsert, if_neg h1, if_neg h2, ordersOf]
        exact ((ih.append_left q).trans List.perm_middle)

/-- Every level of `levelInsert p o m` either has key `p` or a key of `m`. -/
theorem levelInsert_keys {p : Nat} {o : Order} {m : PriceMap} :
    ∀ l ∈ levelInsert p o m, l.1 = p ∨ ∃ l' ∈ m, l.1 = l'.1 := by
  induction m with
  | nil =>
    intro l hl
    simp only [levelInsert, List.mem_singleton] at hl
    subst hl; exact Or.inl rfl
  | cons e rest ih =>
    obtain ⟨k, q⟩ := e
    intro l hl
    by_cases h1 : p < k
    · simp only [levelInsert, if_pos h1] at hl
      rcases List.mem_cons.mp hl with rfl | hl
      · exact Or.inl rfl
      · exact Or.inr ⟨l, hl, rfl⟩
    · by_cases h2 : p = k
      · simp only [levelInsert, if_neg h1, if_pos h2] at hl
        rcases List.mem_cons.mp hl with rfl | hl
        · exact Or.inr ⟨(k, q), List.mem_cons_self _ _, rfl⟩
        · exact Or.inr ⟨l, List.mem_cons_of_mem _ hl, rfl⟩
      · simp only [levelInsert, if_neg h1, if_neg h2] at hl
        rcases List.mem_cons.mp hl with rfl | hl
        · exact Or.inr ⟨(k, q), List.mem_cons_self _ _, rfl⟩
        · rcases ih l hl with hp | ⟨l', hl', hkey⟩
          · exact Or.inl hp
          · exact Or.inr ⟨l', List.mem_cons_of_mem _ hl', hkey⟩

theorem sortedKeys_levelInsert (p : Nat) (o : Order) (m : PriceMap)
    (h : sortedKeys m) : sortedKeys (levelInsert p o m) := by
  induction m with
  | nil => simp [levelInsert, sortedKeys]
  | cons e rest ih =>
    obtain ⟨k, q⟩ := e
    rcases List.pairwise_cons.mp h with ⟨hk, hrest⟩
    by_cases h1 : p < k
    · simp only [levelInsert, if_pos h1]
      refine List.pairwise_cons.mpr ⟨?_, h⟩
      intro y hy
      rcases List.mem_cons.mp hy with rfl | hy
      · exact h1
      · exact Nat.lt_trans h1 (hk y hy)
    · by_cases h2 : p = k
      · simp only [levelInsert, if_neg h1, if_pos h2]
        exact List.pairwise_cons.mpr ⟨hk, hrest⟩
      · simp only [levelInsert, if_neg h1, if_neg h2]
        refine List.pairwise_cons.mpr ⟨?_, ih hrest⟩
        intro y hy
        rcases levelInsert_keys y hy with hp | ⟨l', hl', hkey⟩
        · have : k < p := Nat.lt_of_le_of_ne (Nat.le_of_not_lt h1) (fun hk2 => h2 hk2.symm)
          simpa [hp] using this
        · have := hk l' hl'
          simpa [hkey] using this

theorem pricesMatch_levelInsert (p : Nat) (o : Order) (m : PriceMap)
    (ho : o.price = p) (h : pricesMatch m) : pricesMatch (levelInsert p o m) := by
  induction m with
  | nil =>
    intro l hl x hx
    simp only [levelInsert, List.mem_singleton] at hl
    subst hl
    simp only [List.mem_singleton] at hx
    subst hx; exact ho
  | cons l rest ih =>
    obtain ⟨k, q⟩ := l
    by_cases h1 : p < k
    · simp only [levelInsert, if_pos h1]
      intro l' hl' x hx
      rcases List.mem_cons.mp hl' with rfl | hl'
      · simp only [List.mem_singleton] at hx; subst hx; exact ho
      · exact h l' hl' x hx
    · by_cases h2 : p = k
      · simp only [levelInsert, if_neg h1, if_pos h2]
        intro l' hl' x hx
        rcases List.mem_cons.mp hl' with rfl | hl'
        · rcases mem_insertByTimestamp.mp hx with rfl | hx
          · simpa [h2] using ho
          · exact h (k, q) (List.mem_cons_self _ _) x hx
        · exact h l' (List.mem_cons_of_mem _ hl') x hx
      · simp only [levelInsert, if_neg h1, if_neg h2]
        intro l' hl' x hx
        rcases List.mem_cons.mp hl' with rfl | hl'
        · exact h (k, q) (List.mem_cons_self _ _) x hx
        · exact ih (fun a ha y hy => h a (List.mem_cons_of_mem _ ha) y hy) l' hl' x hx

/-! ### Pop and peek lemmas -/

theorem mem_ordersOf {x : Order} {m : PriceMap} :
    x ∈ ordersOf m ↔ ∃ l ∈ m, x ∈ l.2 := by
  induction m with
  | nil => simp [ordersOf]
  | cons e rest ih =>
    obtain ⟨k, q⟩ := e
    simp only [ordersOf, List.mem_append, ih, List.mem_cons]
    constructor
    · rintro (hx | ⟨l, hl, hx⟩)
      · exact ⟨(k, q), Or.inl rfl, hx⟩
      · exact ⟨l, Or.inr hl, hx⟩
    · rintro ⟨l, (rfl | hl), hx⟩
      · exact Or.inl hx
      · exact Or.inr ⟨l, hl, hx⟩

theorem popBestLow_none {m m' : PriceMap} (h : popBestLow m = (none, m')) :
    ordersOf m = [] ∧ m' = [] := by
  induction m with
  | nil =>
    simp only [popBestLow, Prod.mk.injEq] at h
    exact ⟨rfl, h.2.symm⟩
  | cons e rest ih =>
    obtain ⟨k, q⟩ := e
    cases q with
    | nil =>
      simp only [popBestLow] at h
      simpa [ordersOf] using ih h
    | cons o os => simp [popBestLow] at h

theorem popBestLow_some {m m' : PriceMap} {o : Order}
    (h : popBestLow m = (some o, m')) : ordersOf m = o :: ordersOf m' := by
  induction m with
  | nil => simp [popBestLow] at h
  | cons e rest ih =>
    obtain ⟨k, q⟩ := e
    cases q with
    | nil =>
      simp only [popBestLow] at h
      simpa [ordersOf] using ih h
    | cons o1 os =>
      simp only [popBestLow, Prod.mk.injEq, Option.some.injEq] at h
      obtain ⟨rfl, rfl⟩ := h
      simp [ordersOf]

theorem peekBestLow_none {m m' : PriceMap} (h : peekBestLow m = (none, m')) :
    ordersOf m = [] ∧ m' = [] := by
  induction m with
  | nil =>
    simp only [peekBestLow, Prod.mk.injEq] at h
    exact ⟨rfl, h.2.symm⟩
  | cons e rest ih =>
    obtain ⟨k, q⟩ := e
    cases q with
    | nil =>
      simp only [peekBestLow] at h
      simpa [ordersOf] using ih h
    | cons o os => simp [peekBestLow] at h

theorem peekBestLow_some {m m' : PriceMap} {o : Order}
    (h : peekBestLow m = (some o, m')) :
    ∃ k os rest, m' = (k, o :: os) :: rest := by
  induction m with
  | nil => simp [peekBestLow] at h
  | cons e rest ih =>
    obtain ⟨k, q⟩ := e
    cases q with
    | nil =>
      simp only [peekBestLow] at h
      exact ih h
    | cons o1 os =>
      simp only [peekBestLow, Prod.mk.injEq, Option.some.injEq] at h
      obtain ⟨rfl, rfl⟩ := h
      exact ⟨k, os, rest, rfl⟩

theorem peekBestLow_ordersOf {m m' : PriceMap} {r : Option Order}
    (h : peekBestLow m = (r, m')) : ordersOf m' = ordersOf m := by
  induction m with
  | nil =>
    simp only [peekBestLow, Prod.mk.injEq] at h
    simp [← h.2]
  | cons e rest ih =>
    obtain ⟨k, q⟩ := e
    cases q with
    | nil =>
      simp only [peekBestLow] at h
      simpa [ordersOf] using ih h
    | cons o os =>
      simp only [peekBestLow, Prod.mk.injEq] at h
      simp [← h.2]

/-- Popping right after a successful peek returns the same order. -/
theorem peekBestLow_pop {m m' : PriceMap} {o : Order}
    (h : peekBestLow m = (some o, m')) :
    ∃ m'', popBestLow m' = (some o, m'') := by
  obtain ⟨k, os, rest, rfl⟩ := peekBestLow_some h
  exact ⟨(k, os) :: rest, rfl⟩

theorem popBestHigh_none {m m' : PriceMap} (h : popBestHigh m = (none, m')) :
    ordersOf m = [] ∧ m' = [] := by
  induction m generalizing m' with
  | nil =>
    simp only [popBestHigh, Prod.mk.injEq] at h
    exact ⟨rfl, h.2.symm⟩
  | cons e rest ih =>
    obtain ⟨k, q⟩ := e
    simp only [popBestHigh] at h
    rcases hr : popBestHigh rest with ⟨ro, mr⟩
    rw [hr] at h
    cases ro with
    | some o => simp at h
    | none =>
      cases q with
      | nil =>
        obtain ⟨hrest, _⟩ := ih hr
        simp only [Prod.mk.injEq] at h
        simp [ordersOf, hrest, ← h.2]
      | cons o os => simp at h

theorem popBestHigh_some {m m' : PriceMap} {o : Order}
    (h : popBestHigh m = (some o, m')) :
    List.Perm (ordersOf m) (o :: ordersOf m') := by
  induction m generalizing m' with
  | nil => simp [popBestHigh] at h
  | cons e rest ih =>
    obtain ⟨k, q⟩ := e
    simp only [popBestHigh] at h
    rcases hr : popBestHigh rest with ⟨ro, mr⟩
    rw [hr] at h
    cases ro with
    | some o2 =>
      simp only [Prod.mk.injEq, Option.some.injEq] at h
      obtain ⟨rfl, rfl⟩ := h
      simp only [ordersOf]
      exact ((ih hr).append_left q).trans List.perm_middle
    | none =>
      obtain ⟨hrest, _⟩ := popBestHigh_none hr
      cases q with
      | nil => simp at h
      | cons o1 os =>
        simp only [Prod.mk.injEq, Option.some.injEq] at h
        obtain ⟨rfl, rfl⟩ := h
        simp [ordersOf, hrest]

theorem peekBestHigh_none {m m' : PriceMap} (h : peekBestHigh m = (none, m')) :
    ordersOf m = [] ∧ m' = [] := by
  induction m generalizing m' with
  | nil =>
    simp only [peekBestHigh, Prod.mk.injEq] at h
    exact ⟨rfl, h.2.symm⟩
  | cons e rest ih =>
    obtain ⟨k, q⟩ := e
    simp only [peekBestHigh] at h
    rcases hr : peekBestHigh rest with ⟨ro, mr⟩
    rw [hr] at h
    cases ro with
    | some o => simp at h
    | none =>
      cases q with
      | nil =>
        obtain ⟨hrest, _⟩ := ih hr
        simp only [Prod.mk.injEq] at h
        simp [ordersOf, hrest, ← h.2]
      | cons o os => simp at h

theorem peekBestHigh_ordersOf {m m' : PriceMap} {r : Option Order}
    (h : peekBestHigh m = (r, m')) : ordersOf m' = ordersOf m := by
  induction m generalizing m' with
  | nil =>
    simp only [peekBestHigh, Prod.mk.injEq] at h
    simp [← h.2]
  | cons e rest ih =>
    obtain ⟨k, q⟩ := e
    simp only [peekBestHigh] at h
    rcases hr : peekBestHigh rest with ⟨ro, mr⟩
    rw [hr] at h
    cases ro with
    | some o2 =>
      simp only [Prod.mk.injEq] at h
      obtain ⟨rfl, hm⟩ := h
      subst hm
      simp [ordersOf, ih hr]
    | none =>
      obtain ⟨hrest, _⟩ := peekBestHigh_none hr
      cases q with
      | nil =>
        simp only [Prod.mk.injEq] at h
        simp [← h.2, ordersOf, hrest]
      | cons o1 os =>
        simp only [Prod.mk.injEq] at h
        simp [← h.2, ordersOf, hrest]

/-- Popping right after a successful peek returns the same order. -/
theorem peekBestHigh_pop {m m' : PriceMap} {o : Order}
    (h : peekBestHigh m = (some o, m')) :
    ∃ m'', popBestHigh m' = (some o, m'') := by
  induction m generalizing m' with
  | nil => simp [peekBestHigh] at h
  | cons e rest ih =>
    obtain ⟨k, q⟩ := e
    simp only [peekBestHigh] at h
    rcases hr : peekBestHigh rest with ⟨ro, mr⟩
    rw [hr] at h
    cases ro with
    | some o2 =>
      simp only [Prod.mk.injEq, Option.some.injEq] at h
      obtain ⟨rfl, rfl⟩ := h
      obtain ⟨m2, hm2⟩ := ih hr
      exact ⟨(k, q) :: m2, by simp [popBestHigh, hm2]⟩
    | none =>
      cases q with
      | nil => simp at h
      | cons o1 os =>
        simp only [Prod.mk.injEq, Option.some.injEq] at h
        obtain ⟨rfl, rfl⟩ := h
        exact ⟨[(k, os)], by simp [popBestHigh]⟩

theorem peekBestLow_mem {m m' : PriceMap} {o : Order}
    (h : peekBestLow m = (some o, m')) : o ∈ ordersOf m := by
  obtain ⟨k, os, rest, rfl⟩ := peekBestLow_some h
  rw [← peekBestLow_ordersOf h]
  simp [ordersOf]

theorem peekBestHigh_mem {m m' : PriceMap} {o : Order}
    (h : peekBestHigh m = (some o, m')) : o ∈ ordersOf m := by
  obtain ⟨m2, hm2⟩ := peekBestHigh_pop h
  rw [← peekBestHigh_ordersOf h]
  exact ((popBestHigh_some hm2).mem_iff).mpr (List.mem_cons_self o _)

theorem WFside_tail {e : Nat × List Order} {rest : PriceMap}
    (h : WFside (e :: rest)) : WFside rest :=
  ⟨(List.pairwise_cons.mp h.1).2,
   fun l hl x hx => h.2 l (List.mem_cons_of_mem _ hl) x hx⟩

/-- The peeked order has the minimum price of its side. -/
theorem peekBestLow_min {m m' : PriceMap} {o : Order} (hw : WFside m)
    (h : peekBestLow m = (some o, m')) : ∀ x ∈ ordersOf m, o.price ≤ x.price := by
  induction m generalizing m' with
  | nil => simp [peekBestLow] at h
  | cons e rest ih =>
    obtain ⟨k, q⟩ := e
    cases q with
    | nil =>
      simp only [peekBestLow] at h
      intro x hx
      simp only [ordersOf, List.nil_append] at hx
      exact ih (WFside_tail hw) h x hx
    | cons o1 os =>
      simp only [peekBestLow, Prod.mk.injEq, Option.some.injEq] at h
      obtain ⟨rfl, rfl⟩ := h
      have hko : o1.price = k := hw.2 (k, o1 :: os) (List.mem_cons_self _ _) o1 (List.mem_cons_self _ _)
      intro x hx
      simp only [ordersOf, List.mem_append] at hx
      rcases hx with hx | hx
      · have : x.price = k := hw.2 (k, o1 :: os) (List.mem_cons_self _ _) x hx
        rw [hko, this]
      · obtain ⟨l, hl, hxl⟩ := mem_ordersOf.mp hx
        have hxp : x.price = l.1 := hw.2 l (List.mem_cons_of_mem _ hl) x hxl
        have hkl : k < l.1 := (List.pairwise_cons.mp hw.1).1 l hl
        rw [hko, hxp]
        exact Nat.le_of_lt hkl

/-- The peeked order has the maximum price of its side. -/
theorem peekBestHigh_max {m m' : PriceMap} {o : Order} (hw : WFside m)
    (h : peekBestHigh m = (some o, m')) : ∀ x ∈ ordersOf m, x.price ≤ o.price := by
  induction m generalizing m' with
  | nil => simp [peekBestHigh] at h
  | cons e rest ih =>
    obtain ⟨k, q⟩ := e
    simp only [peekBestHigh] at h
    rcases hr : peekBestHigh rest with ⟨ro, mr⟩
    rw [hr] at h
    cases ro with
    | some o2 =>
      simp only [Prod.mk.injEq, Option.some.injEq] at h
      obtain ⟨rfl, rfl⟩ := h
      intro x hx
      simp only [ordersOf, List.mem_append] at hx
      rcases hx with hx | hx
      · have hxk : x.price = k := hw.2 (k, q) (List.mem_cons_self _ _) x hx
        have homem : o2 ∈ ordersOf rest := peekBestHigh_mem hr
        obtain ⟨l, hl, hol⟩ := mem_ordersOf.mp homem
        have hop : o2.price = l.1 :=
          hw.2 l (List.mem_cons_of_mem _ hl) o2 hol
        have hkl : k < l.1 := (List.pairwise_cons.mp hw.1).1 l hl
        rw [hxk, hop]
        exact Nat.le_of_lt hkl
      · exact ih (WFside_tail hw) hr x hx
    | none =>
      obtain ⟨hrest, _⟩ := peekBestHigh_none hr
      cases q with
      | nil => simp at h
      | cons o1 os =>
        simp only [Prod.mk.injEq, Option.some.injEq] at h
        obtain ⟨rfl, rfl⟩ := h
        intro x hx
        simp only [ordersOf, hrest, List.append_nil] at hx
        have hxk : x.price = k := hw.2 (k, o1 :: os) (List.mem_cons_self _ _) x hx
        have hok : o1.price = k := hw.2 (k, o1 :: os) (List.mem_cons_self _ _) o1 (List.mem_cons_self _ _)
        rw [hxk, hok]

theorem popBestHigh_keys {m m' : PriceMap} {r : Option Order}
    (h : popBestHigh m = (r, m')) : ∀ l ∈ m', ∃ l2 ∈ m, l.1 = l2.1 := by
  induction m generalizing m' r with
  | nil =>
    simp only [popBestHigh, Prod.mk.injEq] at h
    intro l hl
    rw [← h.2] at hl
    simp at hl
  | cons e rest ih =>
    obtain ⟨k, q⟩ := e
    simp only [popBestHigh] at h
    rcases hr : popBestHigh rest with ⟨ro, mr⟩
    rw [hr] at h
    cases ro with
    | some o2 =>
      simp only [Prod.mk.injEq] at h
      obtain ⟨_, hm⟩ := h
      subst hm
      intro l hl
      rcases List.mem_cons.mp hl with rfl | hl
      · exact ⟨(k, q), List.mem_cons_self _ _, rfl⟩
      · obtain ⟨l2, hl2, hkey⟩ := ih hr l hl
        exact ⟨l2, List.mem_cons_of_mem _ hl2, hkey⟩
    | none =>
      cases q with
      | nil =>
        simp only [Prod.mk.injEq] at h
        intro l hl
        rw [← h.2] at hl
        simp at hl
      | cons o1 os =>
        simp only [Prod.mk.injEq] at h
        intro l hl
        rw [← h.2] at hl
        simp only [List.mem_singleton] at hl
        subst hl
        exact ⟨(k, o1 :: os), List.mem_cons_self _ _, rfl⟩

theorem peekBestHigh_keys {m m' : PriceMap} {r : Option Order}
    (h : peekBestHigh m = (r, m')) : ∀ l ∈ m', ∃ l2 ∈ m, l.1 = l2.1 := by
  induction m generalizing m' r with
  | nil =>
    simp only [peekBestHigh, Prod.mk.injEq] at h
    intro l hl
    rw [← h.2] at hl
    simp at hl
  | cons e rest ih =>
    obtain ⟨k, q⟩ := e
    simp only [peekBestHigh] at h
    rcases hr : peekBestHigh rest with ⟨ro, mr⟩
    rw [hr] at h
    cases ro with
    | some o2 =>
      simp only [Prod.mk.injEq] at h
      obtain ⟨_, hm⟩ := h
      subst hm
      intro l hl
      rcases List.mem_cons.mp hl with rfl | hl
      · exact ⟨(k, q), List.mem_cons_self _ _, rfl⟩
      · obtain ⟨l2, hl2, hkey⟩ := ih hr l hl
        exact ⟨l2, List.mem_cons_of_mem _ hl2, hkey⟩
    | none =>
      cases q with
      | nil =>
        simp only [Prod.mk.injEq] at h
        intro l hl
        rw [← h.2] at hl
        simp at hl
      | cons o1 os =>
        simp only [Prod.mk.injEq] at h
        intro l hl
        rw [← h.2] at hl
        simp only [List.mem_singleton] at hl
        subst hl
        exact ⟨(k, o1 :: os), List.mem_cons_self _ _, rfl⟩

theorem WFside_popBestLow {m m' : PriceMap} {r : Option Order}
    (h : popBestLow m = (r, m')) (hw : WFside m) : WFside m' := by
  induction m generalizing m' r with
  | nil =>
    simp only [popBestLow, Prod.mk.injEq] at h
    rw [← h.2]
    exact ⟨List.Pairwise.nil, by intro l hl; simp at hl⟩
  | cons e rest ih =>
    obtain ⟨k, q⟩ := e
    cases q with
    | nil =>
      simp only [popBestLow] at h
      exact ih h (WFside_tail hw)
    | cons o1 os =>
      simp only [popBestLow, Prod.mk.injEq] at h
      obtain ⟨_, hm⟩ := h
      subst hm
      constructor
      · exact List.pairwise_cons.mpr ⟨(List.pairwise_cons.mp hw.1).1, (List.pairwise_cons.mp hw.1).2⟩
      · intro l hl x hx
        rcases List.mem_cons.mp hl with rfl | hl
        · exact hw.2 (k, o1 :: os) (List.mem_cons_self _ _) x (List.mem_cons_of_mem _ hx)
        · exact hw.2 l (List.mem_cons_of_mem _ hl) x hx

theorem WFside_peekBestLow {m m' : PriceMap} {r : Option Order}
    (h : peekBestLow m = (r, m')) (hw : WFside m) : WFside m' := by
  induction m generalizing m' r with
  | nil =>
    simp only [peekBestLow, Prod.mk.injEq] at h
    rw [← h.2]
    exact ⟨List.Pairwise.nil, by intro l hl; simp at hl⟩
  | cons e rest ih =>
    obtain ⟨k, q⟩ := e
    cases q with
    | nil =>
      simp only [peekBestLow] at h
      exact ih h (WFside_tail hw)
    | cons o1 os =>
      simp only [peekBestLow, Prod.mk.injEq] at h
      obtain ⟨_, hm⟩ := h
      subst hm
      exact hw

theorem WFside_popBestHigh {m m' : PriceMap} {r : Option Order}
    (h : popBestHigh m = (r, m')) (hw : WFside m) : WFside m' := by
  induction m generalizing m' r with
  | nil =>
    simp only [popBestHigh, Prod.mk.injEq] at h
    rw [← h.2]
    exact ⟨List.Pairwise.nil, by intro l hl; simp at hl⟩
  | cons e rest ih =>
    obtain ⟨k, q⟩ := e
    simp only [popBestHigh] at h
    rcases hr : popBestHigh rest with ⟨ro, mr⟩
    rw [hr] at h
    cases ro with
    | some o2 =>
      simp only [Prod.mk.injEq] at h
      obtain ⟨_, hm⟩ := h
      subst hm
      have hwrest := ih hr (WFside_tail hw)
      constructor
      · refine List.pairwise_cons.mpr ⟨?_, hwrest.1⟩
        intro y hy
        obtain ⟨l2, hl2, hkey⟩ := popBestHigh_keys hr y hy
        rw [hkey]
        exact (List.pairwise_cons.mp hw.1).1 l2 hl2
      · intro l hl x hx
        rcases List.mem_cons.mp hl with rfl | hl
        · exact hw.2 (k, q) (List.mem_cons_self _ _) x hx
        · exact hwrest.2 l hl x hx
    | none =>
      cases q with
      | nil =>
        simp only [Prod.mk.injEq] at h
        rw [← h.2]
        exact ⟨List.Pairwise.nil, by intro l hl; simp at hl⟩
      | cons o1 os =>
        simp only [Prod.mk.injEq] at h
        rw [← h.2]
        constructor
        · exact List.pairwise_singleton _ _
        · intro l hl x hx
          simp only [List.mem_singleton] at hl
          subst hl
          exact hw.2 (k, o1 :: os) (List.mem_cons_self _ _) x (List.mem_cons_of_mem _ hx)

theorem WFside_peekBestHigh {m m' : PriceMap} {r : Option Order}
    (h : peekBestHigh m = (r, m')) (hw : WFside m) : WFside m' := by
  induction m generalizing m' r with
  | nil =>
    simp only [peekBestHigh, Prod.mk.injEq] at h
    rw [← h.2]
    exact ⟨List.Pairwise.nil, by intro l hl; simp at hl⟩
  | cons e rest ih =>
    obtain ⟨k, q⟩ := e
    simp only [peekBestHigh] at h
    rcases hr : peekBestHigh rest with ⟨ro, mr⟩
    rw [hr] at h
    cases ro with
    | some o2 =>
      simp only [Prod.mk.injEq] at h
      obtain ⟨_, hm⟩ := h
      subst hm
      have hwrest := ih hr (WFside_tail hw)
      constructor
      · refine List.pairwise_cons.mpr ⟨?_, hwrest.1⟩
        intro y hy
        obtain ⟨l2, hl2, hkey⟩ := peekBestHigh_keys hr y hy
        rw [hkey]
        exact (List.pairwise_cons.mp hw.1).1 l2 hl2
      · intro l hl x hx
        rcases List.mem_cons.mp hl with rfl | hl
        · exact hw.2 (k, q) (List.mem_cons_self _ _) x hx
        · exact hwrest.2 l hl x hx
    | none =>
      cases q with
      | nil =>
        simp only [Prod.mk.injEq] at h
        rw [← h.2]
        exact ⟨List.Pairwise.nil, by intro l hl; simp at hl⟩
      | cons o1 os =>
        simp only [Prod.mk.injEq] at h
        rw [← h.2]
        constructor
        · exact List.pairwise_singleton _ _
        · intro l hl x hx
          simp only [List.mem_singleton] at hl
          subst hl
          exact hw.2 (k, o1 :: os) (List.mem_cons_self _ _) x hx

/-! ### Lazy removal of empty levels -/

theorem popBestLow_skip_empty (k : Nat) (m : PriceMap) :
    popBestLow ((k, []) :: m) = popBestLow m := rfl

theorem peekBestLow_skip_empty (k : Nat) (m : PriceMap) :
    peekBestLow ((k, []) :: m) = peekBestLow m := rfl

theorem popBestHigh_skip_empty (k : Nat) (m : PriceMap) :
    popBestHigh (m ++ [(k, [])]) = popBestHigh m := by
  induction m with
  | nil => simp [popBestHigh]
  | cons e rest ih =>
    obtain ⟨k2, q⟩ := e
    simp only [List.cons_append, popBestHigh, List.append_eq, ih]

theorem peekBestHigh_skip_empty (k : Nat) (m : PriceMap) :
    peekBestHigh (m ++ [(k, [])]) = peekBestHigh m := by
  induction m with
  | nil => simp [peekBestHigh]
  | cons e rest ih =>
    obtain ⟨k2, q⟩ := e
    simp only [List.cons_append, peekBestHigh, List.append_eq, ih]

/-! ### Book-level invariants and their preservation -/

/-- All invariants the reachable books enjoy. -/
def OrderBook.Good (b : OrderBook) : Prop := b.WF ∧ b.SidesOK ∧ b.NoCross

/-- A new order does not cross the opposite side. -/
def crossSafe (o : Order) (b : OrderBook) : Prop :=
  match o.side with
  | Side.buy => ∀ s ∈ ordersOf b.asks, o.price < s.price
  | Side.sell => ∀ x ∈ ordersOf b.bids, x.price < o.price

theorem popBestLow_subset {m m' : PriceMap} {r : Option Order}
    (h : popBestLow m = (r, m')) : ∀ x ∈ ordersOf m', x ∈ ordersOf m := by
  cases r with
  | none => obtain ⟨_, rfl⟩ := popBestLow_none h; simp [ordersOf]
  | some o =>
    intro x hx
    rw [popBestLow_some h]
    exact List.mem_cons_of_mem _ hx

theorem popBestHigh_subset {m m' : PriceMap} {r : Option Order}
    (h : popBestHigh m = (r, m')) : ∀ x ∈ ordersOf m', x ∈ ordersOf m := by
  cases r with
  | none => obtain ⟨_, rfl⟩ := popBestHigh_none h; simp [ordersOf]
  | some o =>
    intro x hx
    exact (popBestHigh_some h).mem_iff.mpr (List.mem_cons_of_mem _ hx)

theorem NoCross_mono (b b' : OrderBook)
    (hb : ∀ x ∈ ordersOf b'.bids, x ∈ ordersOf b.bids)
    (ha : ∀ x ∈ ordersOf b'.asks, x ∈ ordersOf b.asks)
    (h : b.NoCross) : b'.NoCross :=
  fun o ho s hs => h o (hb o ho) s (ha s hs)

theorem SidesOK_mono (b b' : OrderBook)
    (hb : ∀ x ∈ ordersOf b'.bids, x ∈ ordersOf b.bids)
    (ha : ∀ x ∈ ordersOf b'.asks, x ∈ ordersOf b.asks)
    (h : b.SidesOK) : b'.SidesOK :=
  ⟨fun o ho => h.1 o (hb o ho), fun o ho => h.2 o (ha o ho)⟩

theorem Good_pop_best_buy {b : OrderBook} (hg : b.Good) : (b.pop_best_buy).2.Good := by
  rcases hp : popBestHigh b.bids with ⟨r, m'⟩
  have hb2 : (b.pop_best_buy).2 = { b with bids := m' } := by
    simp [OrderBook.pop_best_buy, hp]
  rw [hb2]
  refine ⟨⟨WFside_popBestHigh hp hg.1.1, hg.1.2⟩, ?_, ?_⟩
  · refine SidesOK_mono b _ ?_ ?_ hg.2.1
    · exact popBestHigh_subset hp
    · intro x hx; exact hx
  · refine NoCross_mono b _ ?_ ?_ hg.2.2
    · exact popBestHigh_subset hp
    · intro x hx; exact hx

theorem Good_pop_best_sell {b : OrderBook} (hg : b.Good) : (b.pop_best_sell).2.Good := by
  rcases hp : popBestLow b.asks with ⟨r, m'⟩
  have hb2 : (b.pop_best_sell).2 = { b with asks := m' } := by
    simp [OrderBook.pop_best_sell, hp]
  rw [hb2]
  refine ⟨⟨hg.1.1, WFside_popBestLow hp hg.1.2⟩, ?_, ?_⟩
  · refine SidesOK_mono b _ ?_ ?_ hg.2.1
    · intro x hx; exact hx
    · exact popBestLow_subset hp
  · refine NoCross_mono b _ ?_ ?_ hg.2.2
    · intro x hx; exact hx
    · exact popBestLow_subset hp

theorem Good_peek_best_buy {b : OrderBook} (hg : b.Good) : (b.peek_best_buy).2.Good := by
  rcases hp : peekBestHigh b.bids with ⟨r, m'⟩
  have hb2 : (b.peek_best_buy).2 = { b with bids := m' } := by
    simp [OrderBook.peek_best_buy, hp]
  rw [hb2]
  have hsub : ∀ x ∈ ordersOf m', x ∈ ordersOf b.bids := by
    intro x hx
    rw [← peekBestHigh_ordersOf hp]
    exact hx
  refine ⟨⟨WFside_peekBestHigh hp hg.1.1, hg.1.2⟩, ?_, ?_⟩
  · refine SidesOK_mono b _ ?_ ?_ hg.2.1
    · exact hsub
    · intro x hx; exact hx
  · refine NoCross_mono b _ ?_ ?_ hg.2.2
    · exact hsub
    · intro x hx; exact hx

theorem Good_peek_best_sell {b : OrderBook} (hg : b.Good) : (b.peek_best_sell).2.Good := by
  rcases hp : peekBestLow b.asks with ⟨r, m'⟩
  have hb2 : (b.peek_best_sell).2 = { b with asks := m' } := by
    simp [OrderBook.peek_best_sell, hp]
  rw [hb2]
  have hsub : ∀ x ∈ ordersOf m', x ∈ ordersOf b.asks := by
    intro x hx
    rw [← peekBestLow_ordersOf hp]
    exact hx
  refine ⟨⟨hg.1.1, WFside_peekBestLow hp hg.1.2⟩, ?_, ?_⟩
  · refine SidesOK_mono b _ ?_ ?_ hg.2.1
    · intro x hx; exact hx
    · exact hsub
  · refine NoCross_mono b _ ?_ ?_ hg.2.2
    · intro x hx; exact hx
    · exact hsub

theorem Good_add_order {b : OrderBook} {o : Order} (hg : b.Good)
    (hs : crossSafe o b) : (b.add_order o).Good := by
  cases hside : o.side with
  | buy =>
    have hb2 : b.add_order o =
        { b with bids := levelInsert o.price o b.bids,
                 order_map := mapInsert o.id (o.quantity, o.price, o.side) b.order_map } := by
      simp [OrderBook.add_order, hside]
    rw [hb2]
    have hmem : ∀ x ∈ ordersOf (levelInsert o.price o b.bids),
        x = o ∨ x ∈ ordersOf b.bids := by
      intro x hx
      have := (ordersOf_levelInsert o.price o b.bids).mem_iff.mp hx
      simpa using this
    refine ⟨⟨⟨sortedKeys_levelInsert _ _ _ hg.1.1.1,
              pricesMatch_levelInsert _ _ _ rfl hg.1.1.2⟩, hg.1.2⟩, ?_, ?_⟩
    · constructor
      · intro x hx
        rcases hmem x hx with rfl | hx
        · exact hside
        · exact hg.2.1.1 x hx
      · exact hg.2.1.2
    · intro x hx s hs2
      rcases hmem x hx with rfl | hx
      · have := hs
        rw [crossSafe, hside] at this
        exact this s hs2
      · exact hg.2.2 x hx s hs2
  | sell =>
    have hb2 : b.add_order o =
        { b with asks := levelInsert o.price o b.asks,
                 order_map := mapInsert o.id (o.quantity, o.price, o.side) b.order_map } := by
      simp [OrderBook.add_order, hside]
    rw [hb2]
    have hmem : ∀ x ∈ ordersOf (levelInsert o.price o b.asks),
        x = o ∨ x ∈ ordersOf b.asks := by
      intro x hx
      have := (ordersOf_levelInsert o.price o b.asks).mem_iff.mp hx
      simpa using this
    refine ⟨⟨hg.1.1, ⟨sortedKeys_levelInsert _ _ _ hg.1.2.1,
              pricesMatch_levelInsert _ _ _ rfl hg.1.2.2⟩⟩, ?_, ?_⟩
    · constructor
      · exact hg.2.1.1
      · intro x hx
        rcases hmem x hx with rfl | hx
        · exact hside
        · exact hg.2.1.2 x hx
    · intro x hx s hs2
      rcases hmem s hs2 with rfl | hs2
      · have := hs
        rw [crossSafe, hside] at this
        exact this x hx
      · exact hg.2.2 x hx s hs2

/-! ### Matching-loop inductions -/

theorem sumQ_append (l1 l2 : List Trade) : sumQ (l1 ++ l2) = sumQ l1 + sumQ l2 := by
  simp [sumQ]

/-- Quantity accounting of the matching loop: on a normal exit the taker's
quantity drop equals the sum of the new trades' quantities. -/
theorem matchLoop_sumQ {fuel : Nat} {ord ord' : Order} {book book' : OrderBook}
    {acc tr : List Trade}
    (h : matchLoop fuel ord book acc = LoopResult.ok ord' book' tr) :
    sumQ acc + ord.quantity = sumQ tr + ord'.quantity
      ∧ ord'.quantity ≤ ord.quantity := by
  induction fuel generalizing ord book acc with
  | zero => simp [matchLoop] at h
  | succ fuel ih =>
    rw [matchLoop] at h
    cases hside : ord.side with
    | buy =>
      rw [hside] at h
      rcases hpk : book.peek_best_sell with ⟨ro, book1⟩
      rw [hpk] at h
      cases ro with
      | none =>
        simp only [LoopResult.ok.injEq] at h
        obtain ⟨rfl, _, rfl⟩ := h
        exact ⟨rfl, Nat.le_refl _⟩
      | some best =>
        simp only [] at h
        by_cases hcm : ord.can_match best = true
        · rw [if_neg (not_not_intro hcm)] at h
          rcases hpp : book1.pop_best_sell with ⟨po, book2⟩
          rw [hpp] at h
          cases po with
          | none => simp at h
          | some opp =>
            simp only [] at h
            have htq : min ord.quantity best.quantity ≤ ord.quantity :=
              Nat.min_le_left _ _
            by_cases hq : ord.quantity - min ord.quantity best.quantity = 0
            · rw [if_pos hq] at h
              simp only [LoopResult.ok.injEq] at h
              obtain ⟨rfl, _, rfl⟩ := h
              constructor
              · simp only [sumQ_append]
                simp [sumQ]
                omega
              · exact Nat.sub_le _ _
            · rw [if_neg hq] at h
              obtain ⟨ihs, ihle⟩ := ih h
              rw [sumQ_append] at ihs
              simp only [sumQ, List.map_cons, List.map_nil, List.sum_cons,
                List.sum_nil] at ihs ihle ⊢
              constructor
              · omega
              · omega
        · rw [if_pos hcm] at h
          simp only [LoopResult.ok.injEq] at h
          obtain ⟨rfl, _, rfl⟩ := h
          exact ⟨rfl, Nat.le_refl _⟩
    | sell =>
      rw [hside] at h
      rcases hpk : book.peek_best_buy with ⟨ro, book1⟩
      rw [hpk] at h
      cases ro with
      | none =>
        simp only [LoopResult.ok.injEq] at h
        obtain ⟨rfl, _, rfl⟩ := h
        exact ⟨rfl, Nat.le_refl _⟩
      | some best =>
        simp only [] at h
        by_cases hcm : ord.can_match best = true
        · rw [if_neg (not_not_intro hcm)] at h
          rcases hpp : book1.pop_best_buy with ⟨po, book2⟩
          rw [hpp] at h
          cases po with
          | none => simp at h
          | some opp =>
            simp only [] at h
            have htq : min ord.quantity best.quantity ≤ ord.quantity :=
              Nat.min_le_left _ _
            by_cases hq : ord.quantity - min ord.quantity best.quantity = 0
            · rw [if_pos hq] at h
              simp only [LoopResult.ok.injEq] at h
              obtain ⟨rfl, _, rfl⟩ := h
              constructor
              · simp only [sumQ_append]
                simp [sumQ]
                omega
              · exact Nat.sub_le _ _
            · rw [if_neg hq] at h
              obtain ⟨ihs, ihle⟩ := ih h
              rw [sumQ_append] at ihs
              simp only [sumQ, List.map_cons, List.map_nil, List.sum_cons,
                List.sum_nil] at ihs ihle ⊢
              constructor
              · omega
              · omega
        · rw [if_pos hcm] at h
          simp only [LoopResult.ok.injEq] at h
          obtain ⟨rfl, _, rfl⟩ := h
          exact ⟨rfl, Nat.le_refl _⟩

/-- Book-level peek/pop agreement on the sell side: the order peeked is the
order the immediately following pop removes. -/
theorem peek_pop_best_sell {b b1 : OrderBook} {o : Order}
    (h : b.peek_best_sell = (some o, b1)) :
    ∃ b2, b1.pop_best_sell = (some o, b2) := by
  rcases hp : peekBestLow b.asks with ⟨r, m'⟩
  have hb : b.peek_best_sell = (r, { b with asks := m' }) := by
    simp [OrderBook.peek_best_sell, hp]
  rw [hb] at h
  simp only [Prod.mk.injEq] at h
  obtain ⟨rfl, rfl⟩ := h
  obtain ⟨m'', hm''⟩ := peekBestLow_pop hp
  exact ⟨{ b with asks := m'' }, by simp [OrderBook.pop_best_sell, hm'']⟩

/-- Book-level peek/pop agreement on the buy side. -/
theorem peek_pop_best_buy {b b1 : OrderBook} {o : Order}
    (h : b.peek_best_buy = (some o, b1)) :
    ∃ b2, b1.pop_best_buy = (some o, b2) := by
  rcases hp : peekBestHigh b.bids with ⟨r, m'⟩
  have hb : b.peek_best_buy = (r, { b with bids := m' }) := by
    simp [OrderBook.peek_best_buy, hp]
  rw [hb] at h
  simp only [Prod.mk.injEq] at h
  obtain ⟨rfl, rfl⟩ := h
  obtain ⟨m'', hm''⟩ := peekBestHigh_pop hp
  exact ⟨{ b with bids := m'' }, by simp [OrderBook.pop_best_buy, hm'']⟩

/-! ### Per-id quantity accounting -/

theorem idQty_perm {id : String} {l l' : List Order} (h : List.Perm l l') :
    idQty id l = idQty id l' :=
  ((h.filter _).map Order.quantity).sum_eq

theorem idQty_cons (id : String) (o : Order) (l : List Order) :
    idQty id (o :: l) = (if o.id = id then o.quantity else 0) + idQty id l := by
  by_cases h : o.id = id
  · simp [idQty, List.filter_cons, h]
  · simp [idQty, List.filter_cons, h]

/-- Quantity that an id carries after `add_order`. -/
theorem qtyOf_add_order (b : OrderBook) (o : Order) (id : String) :
    (b.add_order o).qtyOf id =
      b.qtyOf id + (if o.id = id then o.quantity else 0) := by
  cases hside : o.side with
  | buy =>
    have hb : b.add_order o =
        { b with bids := levelInsert o.price o b.bids,
                 order_map := mapInsert o.id (o.quantity, o.price, o.side) b.order_map } := by
      simp [OrderBook.add_order, hside]
    rw [hb]
    simp only [OrderBook.qtyOf]
    rw [idQty_perm (ordersOf_levelInsert o.price o b.bids), idQty_cons]
    omega
  | sell =>
    have hb : b.add_order o =
        { b with asks := levelInsert o.price o b.asks,
                 order_map := mapInsert o.id (o.quantity, o.price, o.side) b.order_map } := by
      simp [OrderBook.add_order, hside]
    rw [hb]
    simp only [OrderBook.qtyOf]
    rw [idQty_perm (ordersOf_levelInsert o.price o b.asks), idQty_cons]
    omega

/-- Quantity that an id carries after a successful sell-side pop. -/
theorem qtyOf_pop_best_sell {b b2 : OrderBook} {o : Order} (id : String)
    (h : b.pop_best_sell = (some o, b2)) :
    b.qtyOf id = b2.qtyOf id + (if o.id = id then o.quantity else 0) := by
  rcases hp : popBestLow b.asks with ⟨r, m'⟩
  have hb : b.pop_best_sell = (r, { b with asks := m' }) := by
    simp [OrderBook.pop_best_sell, hp]
  rw [hb] at h
  simp only [Prod.mk.injEq] at h
  obtain ⟨rfl, rfl⟩ := h
  simp only [OrderBook.qtyOf]
  rw [popBestLow_some hp, idQty_cons]
  omega

/-- Quantity that an id carries after a successful buy-side pop. -/
theorem qtyOf_pop_best_buy {b b2 : OrderBook} {o : Order} (id : String)
    (h : b.pop_best_buy = (some o, b2)) :
    b.qtyOf id = b2.qtyOf id + (if o.id = id then o.quantity else 0) := by
  rcases hp : popBestHigh b.bids with ⟨r, m'⟩
  have hb : b.pop_best_buy = (r, { b with bids := m' }) := by
    simp [OrderBook.pop_best_buy, hp]
  rw [hb] at h
  simp only [Prod.mk.injEq] at h
  obtain ⟨rfl, rfl⟩ := h
  simp only [OrderBook.qtyOf]
  rw [idQty_perm (popBestHigh_some hp), idQty_cons]
  omega

/-- Peeks leave every id's total resting quantity unchanged. -/
theorem qtyOf_peek_best_sell {b : OrderBook} (id : String) :
    (b.peek_best_sell).2.qtyOf id = b.qtyOf id := by
  rcases hp : peekBestLow b.asks with ⟨r, m'⟩
  have hb : (b.peek_best_sell).2 = { b with asks := m' } := by
    simp [OrderBook.peek_best_sell, hp]
  rw [hb]
  simp only [OrderBook.qtyOf]
  rw [peekBestLow_ordersOf hp]

theorem qtyOf_peek_best_buy {b : OrderBook} (id : String) :
    (b.peek_best_buy).2.qtyOf id = b.qtyOf id := by
  rcases hp : peekBestHigh b.bids with ⟨r, m'⟩
  have hb : (b.peek_best_buy).2 = { b with bids := m' } := by
    simp [OrderBook.peek_best_buy, hp]
  rw [hb]
  simp only [OrderBook.qtyOf]
  rw [peekBestHigh_ordersOf hp]

theorem makerSum_append (s : Side) (id : String) (l1 l2 : List Trade) :
    makerSum s id (l1 ++ l2) = makerSum s id l1 + makerSum s id l2 := by
  simp [makerSum, List.filter_append, sumQ_append]

theorem makerSum_single (s : Side) (id : String) (t : Trade) :
    makerSum s id [t] = if makerIdOf s t = id then t.quantity else 0 := by
  by_cases h : makerIdOf s t = id
  · simp [makerSum, List.filter_cons, h, sumQ]
  · simp [makerSum, List.filter_cons, h, sumQ]

/-! ### Decomposition of the book-level wrappers -/

theorem peek_best_sell_parts {b b1 : OrderBook} {r : Option Order}
    (h : b.peek_best_sell = (r, b1)) :
    peekBestLow b.asks = (r, b1.asks) ∧ b1.bids = b.bids
      ∧ b1.order_map = b.order_map := by
  rcases hp : peekBestLow b.asks with ⟨r0, m'⟩
  have hb : b.peek_best_sell = (r0, { b with asks := m' }) := by
    simp [OrderBook.peek_best_sell, hp]
  rw [hb] at h
  simp only [Prod.mk.injEq] at h
  obtain ⟨rfl, rfl⟩ := h
  exact ⟨rfl, rfl, rfl⟩

theorem peek_best_buy_parts {b b1 : OrderBook} {r : Option Order}
    (h : b.peek_best_buy = (r, b1)) :
    peekBestHigh b.bids = (r, b1.bids) ∧ b1.asks = b.asks
      ∧ b1.order_map = b.order_map := by
  rcases hp : peekBestHigh b.bids with ⟨r0, m'⟩
  have hb : b.peek_best_buy = (r0, { b with bids := m' }) := by
    simp [OrderBook.peek_best_buy, hp]
  rw [hb] at h
  simp only [Prod.mk.injEq] at h
  obtain ⟨rfl, rfl⟩ := h
  exact ⟨rfl, rfl, rfl⟩

theorem pop_best_sell_parts {b b2 : OrderBook} {r : Option Order}
    (h : b.pop_best_sell = (r, b2)) :
    popBestLow b.asks = (r, b2.asks) ∧ b2.bids = b.bids
      ∧ b2.order_map = b.order_map := by
  rcases hp : popBestLow b.asks with ⟨r0, m'⟩
  have hb : b.pop_best_sell = (r0, { b with asks := m' }) := by
    simp [OrderBook.pop_best_sell, hp]
  rw [hb] at h
  simp only [Prod.mk.injEq] at h
  obtain ⟨rfl, rfl⟩ := h
  exact ⟨rfl, rfl, rfl⟩

theorem pop_best_buy_parts {b b2 : OrderBook} {r : Option Order}
    (h : b.pop_best_buy = (r, b2)) :
    popBestHigh b.bids = (r, b2.bids) ∧ b2.asks = b.asks
      ∧ b2.order_map = b.order_map := by
  rcases hp : popBestHigh b.bids with ⟨r0, m'⟩
  have hb : b.pop_best_buy = (r0, { b with bids := m' }) := by
    simp [OrderBook.pop_best_buy, hp]
  rw [hb] at h
  simp only [Prod.mk.injEq] at h
  obtain ⟨rfl, rfl⟩ := h
  exact ⟨rfl, rfl, rfl⟩

/-- `add_order` leaves the side opposite the order untouched. -/
theorem add_order_parts (b : OrderBook) (o : Order) :
    (o.side = Side.buy → (b.add_order o).asks = b.asks)
      ∧ (o.side = Side.sell → (b.add_order o).bids = b.bids) := by
  cases hside : o.side with
  | buy => simp [OrderBook.add_order, hside]
  | sell => simp [OrderBook.add_order, hside]

/-! ### Field preservation, no panic, fuel sufficiency -/

/-- The matching loop only ever changes the taker's quantity. -/
theorem matchLoop_fields {fuel : Nat} {ord ord' : Order} {book book' : OrderBook}
    {acc tr : List Trade}
    (h : matchLoop fuel ord book acc = LoopResult.ok ord' book' tr) :
    ord'.id = ord.id ∧ ord'.side = ord.side ∧ ord'.price = ord.price
      ∧ ord'.order_type = ord.order_type ∧ ord'.timestamp = ord.timestamp := by
  induction fuel generalizing ord book acc with
  | zero => simp [matchLoop] at h
  | succ fuel ih =>
    rw [matchLoop] at h
    cases hside : ord.side with
    | buy =>
      rw [hside] at h
      rcases hpk : book.peek_best_sell with ⟨ro, book1⟩
      rw [hpk] at h
      cases ro with
      | none =>
        simp only [LoopResult.ok.injEq] at h
        obtain ⟨rfl, _, rfl⟩ := h
        exact ⟨rfl, hside, rfl, rfl, rfl⟩
      | some best =>
        simp only [] at h
        by_cases hcm : ord.can_match best = true
        · rw [if_neg (not_not_intro hcm)] at h
          rcases hpp : book1.pop_best_sell with ⟨po, book2⟩
          rw [hpp] at h
          cases po with
          | none => simp at h
          | some opp =>
            simp only [] at h
            by_cases hq : ord.quantity - min ord.quantity best.quantity = 0
            · rw [if_pos hq] at h
              simp only [LoopResult.ok.injEq] at h
              obtain ⟨rfl, _, rfl⟩ := h
              simp [hside]
            · rw [if_neg hq] at h
              have := ih h
              simp only [] at this
              simpa [hside] using this
        · rw [if_pos hcm] at h
          simp only [LoopResult.ok.injEq] at h
          obtain ⟨rfl, _, rfl⟩ := h
          exact ⟨rfl, hside, rfl, rfl, rfl⟩
    | sell =>
      rw [hside] at h
      rcases hpk : book.peek_best_buy with ⟨ro, book1⟩
      rw [hpk] at h
      cases ro with
      | none =>
        simp only [LoopResult.ok.injEq] at h
        obtain ⟨rfl, _, rfl⟩ := h
        exact ⟨rfl, hside, rfl, rfl, rfl⟩
      | some best =>
        simp only [] at h
        by_cases hcm : ord.can_match best = true
        · rw [if_neg (not_not_intro hcm)] at h
          rcases hpp : book1.pop_best_buy with ⟨po, book2⟩
          rw [hpp] at h
          cases po with
          | none => simp at h
          | some opp =>
            simp only [] at h
            by_cases hq : ord.quantity - min ord.quantity best.quantity = 0
            · rw [if_pos hq] at h
              simp only [LoopResult.ok.injEq] at h
              obtain ⟨rfl, _, rfl⟩ := h
              simp [hside]
            · rw [if_neg hq] at h
              have := ih h
              simp only [] at this
              simpa [hside] using this
        · rw [if_pos hcm] at h
          simp only [LoopResult.ok.injEq] at h
          obtain ⟨rfl, _, rfl⟩ := h
          exact ⟨rfl, hside, rfl, rfl, rfl⟩

/-- The `unwrap` inside the matching loop is never reached with `None`: the
pop that follows a successful peek always succeeds. -/
theorem matchLoop_no_panic (fuel : Nat) (ord : Order) (book : OrderBook)
    (acc : List Trade) : matchLoop fuel ord book acc ≠ LoopResult.panicked := by
  induction fuel generalizing ord book acc with
  | zero => simp [matchLoop]
  | succ fuel ih =>
    intro h
    rw [matchLoop] at h
    cases hside : ord.side with
    | buy =>
      rw [hside] at h
      rcases hpk : book.peek_best_sell with ⟨ro, book1⟩
      rw [hpk] at h
      cases ro with
      | none => simp at h
      | some best =>
        simp only [] at h
        by_cases hcm : ord.can_match best = true
        · rw [if_neg (not_not_intro hcm)] at h
          obtain ⟨b2, hb2⟩ := peek_pop_best_sell hpk
          rw [hb2] at h
          simp only [] at h
          by_cases hq : ord.quantity - min ord.quantity best.quantity = 0
          · rw [if_pos hq] at h
            simp at h
          · rw [if_neg hq] at h
            exact ih _ _ _ h
        · rw [if_pos hcm] at h
          simp at h
    | sell =>
      rw [hside] at h
      rcases hpk : book.peek_best_buy with ⟨ro, book1⟩
      rw [hpk] at h
      cases ro with
      | none => simp at h
      | some best =>
        simp only [] at h
        by_cases hcm : ord.can_match best = true
        · rw [if_neg (not_not_intro hcm)] at h
          obtain ⟨b2, hb2⟩ := peek_pop_best_buy hpk
          rw [hb2] at h
          simp only [] at h
          by_cases hq : ord.quantity - min ord.quantity best.quantity = 0
          · rw [if_pos hq] at h
            simp at h
          · rw [if_neg hq] at h
            exact ih _ _ _ h
        · rw [if_pos hcm] at h
          simp at h

/-- One more unit of fuel than the number of resting opposite orders always
suffices: each loop iteration that recurses consumes one resting order. -/
theorem matchLoop_fuel {fuel : Nat} {ord : Order} {book : OrderBook}
    {acc : List Trade} (hcount : oppositeCount ord book < fuel) :
    matchLoop fuel ord book acc ≠ LoopResult.outOfFuel := by
  induction fuel generalizing ord book acc with
  | zero => exact absurd hcount (Nat.not_lt_zero _)
  | succ fuel ih =>
    intro h
    rw [matchLoop] at h
    cases hside : ord.side with
    | buy =>
      rw [hside] at h
      rcases hpk : book.peek_best_sell with ⟨ro, book1⟩
      rw [hpk] at h
      cases ro with
      | none => simp at h
      | some best =>
        simp only [] at h
        by_cases hcm : ord.can_match best = true
        · rw [if_neg (not_not_intro hcm)] at h
          obtain ⟨b2, hb2⟩ := peek_pop_best_sell hpk
          rw [hb2] at h
          simp only [] at h
          by_cases hq : ord.quantity - min ord.quantity best.quantity = 0
          · rw [if_pos hq] at h
            simp at h
          · rw [if_neg hq] at h
            have hmin : min ord.quantity best.quantity = best.quantity := by
              omega
            rw [if_neg (by omega : ¬ 0 < best.quantity - min ord.quantity best.quantity)] at h
            refine ih ?_ h
            obtain ⟨hplow, _, _⟩ := pop_best_sell_parts hb2
            obtain ⟨hpek, _, _⟩ := peek_best_sell_parts hpk
            have h1 : ordersOf book1.asks = best :: ordersOf b2.asks :=
              popBestLow_some hplow
            have h0 : ordersOf book1.asks = ordersOf book.asks :=
              peekBestLow_ordersOf hpek
            simp only [oppositeCount, hside] at hcount
            simp only [oppositeCount]
            rw [← h0, h1] at hcount
            simp only [List.length_cons] at hcount
            omega
        · rw [if_pos hcm] at h
          simp at h
    | sell =>
      rw [hside] at h
      rcases hpk : book.peek_best_buy with ⟨ro, book1⟩
      rw [hpk] at h
      cases ro with
      | none => simp at h
      | some best =>
        simp only [] at h
        by_cases hcm : ord.can_match best = true
        · rw [if_neg (not_not_intro hcm)] at h
          obtain ⟨b2, hb2⟩ := peek_pop_best_buy hpk
          rw [hb2] at h
          simp only [] at h
          by_cases hq : ord.quantity - min ord.quantity best.quantity = 0
          · rw [if_pos hq] at h
            simp at h
          · rw [if_neg hq] at h
            have hmin : min ord.quantity best.quantity = best.quantity := by
              omega
            rw [if_neg (by omega : ¬ 0 < best.quantity - min ord.quantity best.quantity)] at h
            refine ih ?_ h
            obtain ⟨hplow, _, _⟩ := pop_best_buy_parts hb2
            obtain ⟨hpek, _, _⟩ := peek_best_buy_parts hpk
            have h1 : List.Perm (ordersOf book1.bids) (best :: ordersOf b2.bids) :=
              popBestHigh_some hplow
            have h0 : ordersOf book1.bids = ordersOf book.bids :=
              peekBestHigh_ordersOf hpek
            simp only [oppositeCount, hside] at hcount
            simp only [oppositeCount]
            have hlen : (ordersOf book.bids).length = (ordersOf b2.bids).length + 1 := by
              rw [← h0]
              simpa using h1.length_eq
            omega
        · rw [if_pos hcm] at h
          simp at h

/-- Per-id conservation: across the loop, the resting quantity an id loses is
exactly the summed quantity of the new trades in which it was the maker. -/
theorem matchLoop_qtyOf {fuel : Nat} {ord ord' : Order} {book book' : OrderBook}
    {acc tr : List Trade}
    (h : matchLoop fuel ord book acc = LoopResult.ok ord' book' tr) (id : String) :
    book.qtyOf id + makerSum ord.side id acc =
      book'.qtyOf id + makerSum ord.side id tr := by
  induction fuel generalizing ord book acc with
  | zero => simp [matchLoop] at h
  | succ fuel ih =>
    rw [matchLoop] at h
    cases hside : ord.side with
    | buy =>
      rw [hside] at h
      rcases hpk : book.peek_best_sell with ⟨ro, book1⟩
      rw [hpk] at h
      have e1 : book1.qtyOf id = book.qtyOf id := by
        have : (book.peek_best_sell).2 = book1 := by rw [hpk]
        rw [← this, qtyOf_peek_best_sell]
      cases ro with
      | none =>
        simp only [LoopResult.ok.injEq] at h
        obtain ⟨rfl, rfl, rfl⟩ := h
        rw [e1]
      | some best =>
        simp only [] at h
        by_cases hcm : ord.can_match best = true
        · rw [if_neg (not_not_intro hcm)] at h
          obtain ⟨b2, hb2⟩ := peek_pop_best_sell hpk
          rw [hb2] at h
          simp only [] at h
          have e2 : book1.qtyOf id = b2.qtyOf id +
              (if best.id = id then best.quantity else 0) :=
            qtyOf_pop_best_sell id hb2
          have htqb : min ord.quantity best.quantity ≤ best.quantity :=
            Nat.min_le_right _ _
          by_cases hre : 0 < best.quantity - min ord.quantity best.quantity
          · rw [if_pos hre] at h
            by_cases hq : ord.quantity - min ord.quantity best.quantity = 0
            · rw [if_pos hq] at h
              simp only [LoopResult.ok.injEq] at h
              obtain ⟨rfl, rfl, rfl⟩ := h
              rw [makerSum_append, makerSum_single]
              rw [qtyOf_add_order]
              simp only [makerIdOf, e1.symm, e2]
              by_cases hid : best.id = id
              · simp [hid] <;> omega
              · simp [hid] <;> omega
            · rw [if_neg hq] at h
              have ihq := ih h
              simp only [] at ihq
              rw [makerSum_append, makerSum_single] at ihq
              rw [qtyOf_add_order] at ihq
              simp only [makerIdOf] at ihq
              rw [← e1, e2]
              by_cases hid : best.id = id
              · simp [hid] at ihq ⊢ <;> omega
              · simp [hid] at ihq ⊢ <;> omega
          · rw [if_neg hre] at h
            have hbq : best.quantity - min ord.quantity best.quantity = 0 := by
              omega
            by_cases hq : ord.quantity - min ord.quantity best.quantity = 0
            · rw [if_pos hq] at h
              simp only [LoopResult.ok.injEq] at h
              obtain ⟨rfl, rfl, rfl⟩ := h
              rw [makerSum_append, makerSum_single]
              simp only [makerIdOf, ← e1, e2]
              by_cases hid : best.id = id
              · simp [hid] <;> omega
              · simp [hid] <;> omega
            · rw [if_neg hq] at h
              have ihq := ih h
              simp only [] at ihq
              rw [makerSum_append, makerSum_single] at ihq
              simp only [makerIdOf] at ihq
              rw [← e1, e2]
              by_cases hid : best.id = id
              · simp [hid] at ihq ⊢ <;> omega
              · simp [hid] at ihq ⊢ <;> omega
        · rw [if_pos hcm] at h
          simp only [LoopResult.ok.injEq] at h
          obtain ⟨rfl, rfl, rfl⟩ := h
          rw [e1]
    | sell =>
      rw [hside] at h
      rcases hpk : book.peek_best_buy with ⟨ro, book1⟩
      rw [hpk] at h
      have e1 : book1.qtyOf id = book.qtyOf id := by
        have : (book.peek_best_buy).2 = book1 := by rw [hpk]
        rw [← this, qtyOf_peek_best_buy]
      cases ro with
      | none =>
        simp only [LoopResult.ok.injEq] at h
        obtain ⟨rfl, rfl, rfl⟩ := h
        rw [e1]
      | some best =>
        simp only [] at h
        by_cases hcm : ord.can_match best = true
        · rw [if_neg (not_not_intro hcm)] at h
          obtain ⟨b2, hb2⟩ := peek_pop_best_buy hpk
          rw [hb2] at h
          simp only [] at h
          have e2 : book1.qtyOf id = b2.qtyOf id +
              (if best.id = id then best.quantity else 0) :=
            qtyOf_pop_best_buy id hb2
          have htqb : min ord.quantity best.quantity ≤ best.quantity :=
            Nat.min_le_right _ _
          by_cases hre : 0 < best.quantity - min ord.quantity best.quantity
          · rw [if_pos hre] at h
            by_cases hq : ord.quantity - min ord.quantity best.quantity = 0
            · rw [if_pos hq] at h
              simp only [LoopResult.ok.injEq] at h
              obtain ⟨rfl, rfl, rfl⟩ := h
              rw [makerSum_append, makerSum_single]
              rw [qtyOf_add_order]
              simp only [makerIdOf, e1.symm, e2]
              by_cases hid : best.id = id
              · simp [hid] <;> omega
              · simp [hid] <;> omega
            · rw [if_neg hq] at h
              have ihq := ih h
              simp only [] at ihq
              rw [makerSum_append, makerSum_single] at ihq
              rw [qtyOf_add_order] at ihq
              simp only [makerIdOf] at ihq
              rw [← e1, e2]
              by_cases hid : best.id = id
              · simp [hid] at ihq ⊢ <;> omega
              · simp [hid] at ihq ⊢ <;> omega
          · rw [if_neg hre] at h
            have hbq : best.quantity - min ord.quantity best.quantity = 0 := by
              omega
            by_cases hq : ord.quantity - min ord.quantity best.quantity = 0
            · rw [if_pos hq] at h
              simp only [LoopResult.ok.injEq] at h
              obtain ⟨rfl, rfl, rfl⟩ := h
              rw [makerSum_append, makerSum_single]
              simp only [makerIdOf, ← e1, e2]
              by_cases hid : best.id = id
              · simp [hid] <;> omega
              · simp [hid] <;> omega
            · rw [if_neg hq] at h
              have ihq := ih h
              simp only [] at ihq
              rw [makerSum_append, makerSum_single] at ihq
              simp only [makerIdOf] at ihq
              rw [← e1, e2]
              by_cases hid : best.id = id
              · simp [hid] at ihq ⊢ <;> omega
              · simp [hid] at ihq ⊢ <;> omega
        · rw [if_pos hcm] at h
          simp only [LoopResult.ok.injEq] at h
          obtain ⟨rfl, rfl, rfl⟩ := h
          rw [e1]

/-- The loop preserves the book invariants, and when it leaves the taker with
both residual quantity and limit type, the taker cannot cross the book it is
about to rest in. -/
theorem matchLoop_good {fuel : Nat} {ord ord' : Order} {book book' : OrderBook}
    {acc tr : List Trade} (hg : book.Good)
    (h : matchLoop fuel ord book acc = LoopResult.ok ord' book' tr) :
    book'.Good ∧ (ord'.quantity ≠ 0 → ord'.order_type = OrderType.limit →
      crossSafe ord' book') := by
  induction fuel generalizing ord book acc with
  | zero => simp [matchLoop] at h
  | succ fuel ih =>
    rw [matchLoop] at h
    cases hside : ord.side with
    | buy =>
      rw [hside] at h
      rcases hpk : book.peek_best_sell with ⟨ro, book1⟩
      rw [hpk] at h
      have e1 : (book.peek_best_sell).2 = book1 := by rw [hpk]
      have hg1 : book1.Good := e1 ▸ Good_peek_best_sell hg
      cases ro with
      | none =>
        simp only [LoopResult.ok.injEq] at h
        obtain ⟨rfl, rfl, rfl⟩ := h
        refine ⟨hg1, ?_⟩
        intro _ _
        obtain ⟨hplow, _, _⟩ := peek_best_sell_parts hpk
        obtain ⟨_, hempty⟩ := peekBestLow_none hplow
        simp only [crossSafe, hside]
        intro s hs
        rw [hempty] at hs
        simp [ordersOf] at hs
      | some best =>
        simp only [] at h
        obtain ⟨hplow, _, _⟩ := peek_best_sell_parts hpk
        have hbmem : best ∈ ordersOf book.asks := peekBestLow_mem hplow
        have hbs : best.side = Side.sell := hg.2.1.2 best hbmem
        by_cases hcm : ord.can_match best = true
        · rw [if_neg (not_not_intro hcm)] at h
          obtain ⟨b2, hb2⟩ := peek_pop_best_sell hpk
          rw [hb2] at h
          simp only [] at h
          have e2 : (book1.pop_best_sell).2 = b2 := by rw [hb2]
          have hg2 : b2.Good := e2 ▸ Good_pop_best_sell hg1
          obtain ⟨hplow2, hbids2, _⟩ := pop_best_sell_parts hb2
          have hbmem1 : best ∈ ordersOf book1.asks := by
            rw [popBestLow_some hplow2]
            exact List.mem_cons_self _ _
          have hg3 : ∀ b3 : OrderBook,
              b3 = (if 0 < best.quantity - min ord.quantity best.quantity then
                b2.add_order { best with
                  quantity := best.quantity - min ord.quantity best.quantity }
                else b2) → b3.Good := by
            intro b3 hb3
            by_cases hre : 0 < best.quantity - min ord.quantity best.quantity
            · rw [if_pos hre] at hb3
              subst hb3
              refine Good_add_order hg2 ?_
              have hbs2 : ({ best with
                  quantity := best.quantity - min ord.quantity best.quantity } : Order).side
                  = Side.sell := hbs
              simp only [crossSafe, hbs, hbs2]
              intro x hx
              rw [hbids2] at hx
              exact hg1.2.2 x hx best hbmem1
            · rw [if_neg hre] at hb3
              subst hb3
              exact hg2
          by_cases hq : ord.quantity - min ord.quantity best.quantity = 0
          · rw [if_pos hq] at h
            simp only [LoopResult.ok.injEq] at h
            obtain ⟨rfl, rfl, rfl⟩ := h
            refine ⟨hg3 _ rfl, ?_⟩
            intro hqne _
            exact absurd hq (by simpa using hqne)
          · rw [if_neg hq] at h
            exact ih (hg3 _ rfl) h
        · rw [if_pos hcm] at h
          simp only [LoopResult.ok.injEq] at h
          obtain ⟨rfl, rfl, rfl⟩ := h
          refine ⟨hg1, ?_⟩
          intro _ hot
          have hcmf : ord.can_match best = false := by
            revert hcm
            cases ord.can_match best <;> simp
          rw [Order.can_match, hside, hbs, hot] at hcmf
          simp only [reduceCtorEq, if_false] at hcmf
          cases hbt : best.order_type with
          | market =>
            rw [hbt] at hcmf
            simp at hcmf
          | limit =>
            rw [hbt] at hcmf
            simp only [if_pos rfl] at hcmf
            have hlt : ¬ (best.price ≤ ord.price) := by simpa using hcmf
            simp only [crossSafe, hside]
            intro s hs
            have hs' : s ∈ ordersOf book.asks := by
              rw [← peekBestLow_ordersOf hplow]
              exact hs
            have := peekBestLow_min hg.1.2 hplow s hs'
            omega
    | sell =>
      rw [hside] at h
      rcases hpk : book.peek_best_buy with ⟨ro, book1⟩
      rw [hpk] at h
      have e1 : (book.peek_best_buy).2 = book1 := by rw [hpk]
      have hg1 : book1.Good := e1 ▸ Good_peek_best_buy hg
      cases ro with
      | none =>
        simp only [LoopResult.ok.injEq] at h
        obtain ⟨rfl, rfl, rfl⟩ := h
        refine ⟨hg1, ?_⟩
        intro _ _
        obtain ⟨phigh, _, _⟩ := peek_best_buy_parts hpk
        obtain ⟨_, hempty⟩ := peekBestHigh_none phigh
        simp only [crossSafe, hside]
        intro s hs
        rw [hempty] at hs
        simp [ordersOf] at hs
      | some best =>
        simp only [] at h
        obtain ⟨phigh, _, _⟩ := peek_best_buy_parts hpk
        have hbmem : best ∈ ordersOf book.bids := peekBestHigh_mem phigh
        have hbs : best.side = Side.buy := hg.2.1.1 best hbmem
        by_cases hcm : ord.can_match best = true
        · rw [if_neg (not_not_intro hcm)] at h
          obtain ⟨b2, hb2⟩ := peek_pop_best_buy hpk
          rw [hb2] at h
          simp only [] at h
          have e2 : (book1.pop_best_buy).2 = b2 := by rw [hb2]
          have hg2 : b2.Good := e2 ▸ Good_pop_best_buy hg1
          obtain ⟨phigh2, hasks2, _⟩ := pop_best_buy_parts hb2
          have hbmem1 : best ∈ ordersOf book1.bids :=
            (popBestHigh_some phigh2).mem_iff.mpr (List.mem_cons_self _ _)
          have hg3 : ∀ b3 : OrderBook,
              b3 = (if 0 < best.quantity - min ord.quantity best.quantity then
                b2.add_order { best with
                  quantity := best.quantity - min ord.quantity best.quantity }
                else b2) → b3.Good := by
            intro b3 hb3
            by_cases hre : 0 < best.quantity - min ord.quantity best.quantity
            · rw [if_pos hre] at hb3
              subst hb3
              refine Good_add_order hg2 ?_
              have hbs2 : ({ best with
                  quantity := best.quantity - min ord.quantity best.quantity } : Order).side
                  = Side.buy := hbs
              simp only [crossSafe, hbs, hbs2]
              intro x hx
              rw [hasks2] at hx
              exact hg1.2.2 best hbmem1 x hx
            · rw [if_neg hre] at hb3
              subst hb3
              exact hg2
          by_cases hq : ord.quantity - min ord.quantity best.quantity = 0
          · rw [if_pos hq] at h
            simp only [LoopResult.ok.injEq] at h
            obtain ⟨rfl, rfl, rfl⟩ := h
            refine ⟨hg3 _ rfl, ?_⟩
            intro hqne _
            exact absurd hq (by simpa using hqne)
          · rw [if_neg hq] at h
            exact ih (hg3 _ rfl) h
        · rw [if_pos hcm] at h
          simp only [LoopResult.ok.injEq] at h
          obtain ⟨rfl, rfl, rfl⟩ := h
          refine ⟨hg1, ?_⟩
          intro _ hot
          have hcmf : ord.can_match best = false := by
            revert hcm
            cases ord.can_match best <;> simp
          rw [Order.can_match, hside, hbs, hot] at hcmf
          simp only [reduceCtorEq, if_false] at hcmf
          cases hbt : best.order_type with
          | market =>
            rw [hbt] at hcmf
            simp at hcmf
          | limit =>
            rw [hbt] at hcmf
            simp only [reduceCtorEq, if_false] at hcmf
            have hlt : ¬ (ord.price ≤ best.price) := by simpa using hcmf
            simp only [crossSafe, hside]
            intro s hs
            have hs' : s ∈ ordersOf book.bids := by
              rw [← peekBestHigh_ordersOf phigh]
              exact hs
            have := peekBestHigh_max hg.1.1 phigh s hs'
            omega

/-- Every trade the loop emits is priced by a maker that was resting on the
opposite side when the submission began: if the taker is a market order, or
the maker a limit order, the trade prints at that maker's price. -/
theorem matchLoop_maker_origin {fuel : Nat} {ord ord' : Order}
    {book book' : OrderBook} {acc tr : List Trade} {orig : List Order}
    (hrel : ∀ o ∈ oppOrders ord book, ∃ m ∈ orig,
      m.id = o.id ∧ m.price = o.price ∧ m.order_type = o.order_type)
    (hacc : ∀ t ∈ acc, ∃ m ∈ orig, makerIdOf ord.side t = m.id ∧
      ((ord.order_type = OrderType.market ∨ m.order_type = OrderType.limit) →
        t.price = m.price))
    (h : matchLoop fuel ord book acc = LoopResult.ok ord' book' tr) :
    ∀ t ∈ tr, ∃ m ∈ orig, makerIdOf ord.side t = m.id ∧
      ((ord.order_type = OrderType.market ∨ m.order_type = OrderType.limit) →
        t.price = m.price) := by
  induction fuel generalizing ord book acc with
  | zero => simp [matchLoop] at h
  | succ fuel ih =>
    rw [matchLoop] at h
    cases hside : ord.side with
    | buy =>
      rw [hside] at h
      rw [hside] at hacc
      simp only [oppOrders, hside] at hrel
      rcases hpk : book.peek_best_sell with ⟨ro, book1⟩
      rw [hpk] at h
      cases ro with
      | none =>
        simp only [LoopResult.ok.injEq] at h
        obtain ⟨rfl, rfl, rfl⟩ := h
        exact hacc
      | some best =>
        simp only [] at h
        obtain ⟨hplow, _, _⟩ := peek_best_sell_parts hpk
        have hbmem : best ∈ ordersOf book.asks := peekBestLow_mem hplow
        obtain ⟨mb, hmb, hmbid, hmbpr, hmbot⟩ := hrel best hbmem
        by_cases hcm : ord.can_match best = true
        · rw [if_neg (not_not_intro hcm)] at h
          obtain ⟨b2, hb2⟩ := peek_pop_best_sell hpk
          rw [hb2] at h
          simp only [] at h
          obtain ⟨hplow2, hoth2, _⟩ := pop_best_sell_parts hb2
          have hsub : ∀ o ∈ ordersOf b2.asks, o ∈ ordersOf book.asks := by
            intro o ho
            rw [← peekBestLow_ordersOf hplow]
            exact by rw [popBestLow_some hplow2]; exact List.mem_cons_of_mem _ ho
          have hrelb2 : ∀ o ∈ ordersOf b2.asks, ∃ m ∈ orig,
              m.id = o.id ∧ m.price = o.price ∧ m.order_type = o.order_type :=
            fun o ho => hrel o (hsub o ho)
          have htrade : ∃ m ∈ orig,
              makerIdOf Side.buy (Trade.mk ord.id best.id
                (match ord.order_type, best.order_type with
                  | OrderType.market, _ => best.price
                  | _, OrderType.market => ord.price
                  | OrderType.limit, OrderType.limit => best.price)
                (min ord.quantity best.quantity)) = m.id ∧
              ((ord.order_type = OrderType.market ∨ m.order_type = OrderType.limit) →
                (Trade.mk ord.id best.id
                  (match ord.order_type, best.order_type with
                    | OrderType.market, _ => best.price
                    | _, OrderType.market => ord.price
                    | OrderType.limit, OrderType.limit => best.price)
                  (min ord.quantity best.quantity)).price = m.price) := by
            refine ⟨mb, hmb, by simp [makerIdOf, hmbid], ?_⟩
            intro hdisj
            cases hot : ord.order_type with
            | market =>
              simp only [hot]
              simp [hmbpr]
            | limit =>
              cases hbt : best.order_type with
              | limit =>
                simp only [hot, hbt]
                simp [hmbpr]
              | market =>
                rcases hdisj with hdisj | hdisj
                · rw [hot] at hdisj
                  cases hdisj
                · rw [hmbot, hbt] at hdisj
                  cases hdisj
          have haccext : ∀ (o2 : Order) (b3 : OrderBook) (acc2 : List Trade),
              (∀ o ∈ ordersOf b3.asks, ∃ m ∈ orig,
                m.id = o.id ∧ m.price = o.price ∧ m.order_type = o.order_type) →
              (∀ t ∈ acc2, ∃ m ∈ orig, makerIdOf Side.buy t = m.id ∧
                ((ord.order_type = OrderType.market ∨ m.order_type = OrderType.limit) →
                  t.price = m.price)) →
              matchLoop fuel o2 b3 acc2 = LoopResult.ok ord' book' tr →
              o2.side = Side.buy → o2.order_type = ord.order_type →
              ∀ t ∈ tr, ∃ m ∈ orig, makerIdOf Side.buy t = m.id ∧
                ((ord.order_type = OrderType.market ∨ m.order_type = OrderType.limit) →
                  t.price = m.price) := by
            intro o2 b3 acc2 hrel3 hacc2 h3 hs2 hot2
            have hr : ∀ o ∈ oppOrders o2 b3, ∃ m ∈ orig,
                m.id = o.id ∧ m.price = o.price ∧ m.order_type = o.order_type := by
              intro o ho
              simp only [oppOrders, hs2] at ho
              exact hrel3 o ho
            have ha : ∀ t ∈ acc2, ∃ m ∈ orig, makerIdOf o2.side t = m.id ∧
                ((o2.order_type = OrderType.market ∨ m.order_type = OrderType.limit) →
                  t.price = m.price) := by
              intro t ht
              rw [hs2, hot2]
              exact hacc2 t ht
            have hmain := ih hr ha h3
            intro t ht
            have hthis := hmain t ht
            rw [hs2, hot2] at hthis
            exact hthis
          have haccnew : ∀ t ∈ acc ++ [Trade.mk ord.id best.id
                (match ord.order_type, best.order_type with
                  | OrderType.market, _ => best.price
                  | _, OrderType.market => ord.price
                  | OrderType.limit, OrderType.limit => best.price)
                (min ord.quantity best.quantity)],
              ∃ m ∈ orig, makerIdOf Side.buy t = m.id ∧
                ((ord.order_type = OrderType.market ∨ m.order_type = OrderType.limit) →
                  t.price = m.price) := by
            intro t ht
            rcases List.mem_append.mp ht with ht | ht
            · exact hacc t ht
            · simp only [List.mem_singleton] at ht
              subst ht
              exact htrade
          by_cases hre : 0 < best.quantity - min ord.quantity best.quantity
          · rw [if_pos hre] at h
            have hrel3 : ∀ o ∈ ordersOf (b2.add_order { best with
                quantity := best.quantity - min ord.quantity best.quantity }).asks,
                ∃ m ∈ orig, m.id = o.id ∧ m.price = o.price
                  ∧ m.order_type = o.order_type := by
              intro o ho
              cases hbsd : best.side with
              | buy =>
                have heq : (b2.add_order { best with
                    quantity := best.quantity - min ord.quantity best.quantity }).asks
                    = b2.asks :=
                  (add_order_parts b2 _).1 hbsd
                rw [heq] at ho
                exact hrelb2 o ho
              | sell =>
                have hbsd2 : ({ best with
                    quantity := best.quantity - min ord.quantity best.quantity } : Order).side
                    = Side.sell := hbsd
                have heq : (b2.add_order { best with
                    quantity := best.quantity - min ord.quantity best.quantity }).asks
                    = levelInsert best.price { best with
                        quantity := best.quantity - min ord.quantity best.quantity }
                        b2.asks := by
                  simp [OrderBook.add_order, hbsd, hbsd2]
                rw [heq] at ho
                have hmem2 := (ordersOf_levelInsert _ _ _).mem_iff.mp ho
                simp only [List.mem_cons] at hmem2
                rcases hmem2 with rfl | ho2
                · exact ⟨mb, hmb, hmbid, hmbpr, hmbot⟩
                · exact hrelb2 o ho2
            by_cases hq : ord.quantity - min ord.quantity best.quantity = 0
            · rw [if_pos hq] at h
              simp only [LoopResult.ok.injEq] at h
              obtain ⟨rfl, rfl, rfl⟩ := h
              exact haccnew
            · rw [if_neg hq] at h
              exact haccext _ _ _ hrel3 haccnew h rfl rfl
          · rw [if_neg hre] at h
            by_cases hq : ord.quantity - min ord.quantity best.quantity = 0
            · rw [if_pos hq] at h
              simp only [LoopResult.ok.injEq] at h
              obtain ⟨rfl, rfl, rfl⟩ := h
              exact haccnew
            · rw [if_neg hq] at h
              exact haccext _ _ _ hrelb2 haccnew h rfl rfl
        · rw [if_pos hcm] at h
          simp only [LoopResult.ok.injEq] at h
          obtain ⟨rfl, rfl, rfl⟩ := h
          exact hacc
    | sell =>
      rw [hside] at h
      rw [hside] at hacc
      simp only [oppOrders, hside] at hrel
      rcases hpk : book.peek_best_buy with ⟨ro, book1⟩
      rw [hpk] at h
      cases ro with
      | none =>
        simp only [LoopResult.ok.injEq] at h
        obtain ⟨rfl, rfl, rfl⟩ := h
        exact hacc
      | some best =>
        simp only [] at h
        obtain ⟨hplow, _, _⟩ := peek_best_buy_parts hpk
        have hbmem : best ∈ ordersOf book.bids := peekBestHigh_mem hplow
        obtain ⟨mb, hmb, hmbid, hmbpr, hmbot⟩ := hrel best hbmem
        by_cases hcm : ord.can_match best = true
        · rw [if_neg (not_not_intro hcm)] at h
          obtain ⟨b2, hb2⟩ := peek_pop_best_buy hpk
          rw [hb2] at h
          simp only [] at h
          obtain ⟨hplow2, hoth2, _⟩ := pop_best_buy_parts hb2
          have hsub : ∀ o ∈ ordersOf b2.bids, o ∈ ordersOf book.bids := by
            intro o ho
            rw [← peekBestHigh_ordersOf hplow]
            exact (popBestHigh_some hplow2).mem_iff.mpr (List.mem_cons_of_mem _ ho)
          have hrelb2 : ∀ o ∈ ordersOf b2.bids, ∃ m ∈ orig,
              m.id = o.id ∧ m.price = o.price ∧ m.order_type = o.order_type :=
            fun o ho => hrel o (hsub o ho)
          have htrade : ∃ m ∈ orig,
              makerIdOf Side.sell (Trade.mk best.id ord.id
                (match ord.order_type, best.order_type with
                  | OrderType.market, _ => best.price
                  | _, OrderType.market => ord.price
                  | OrderType.limit, OrderType.limit => best.price)
                (min ord.quantity best.quantity)) = m.id ∧
              ((ord.order_type = OrderType.market ∨ m.order_type = OrderType.limit) →
                (Trade.mk best.id ord.id
                  (match ord.order_type, best.order_type with
                    | OrderType.market, _ => best.price
                    | _, OrderType.market => ord.price
                    | OrderType.limit, OrderType.limit => best.price)
                  (min ord.quantity best.quantity)).price = m.price) := by
            refine ⟨mb, hmb, by simp [makerIdOf, hmbid], ?_⟩
            intro hdisj
            cases hot : ord.order_type with
            | market =>
              simp only [hot]
              simp [hmbpr]
            | limit =>
              cases hbt : best.order_type with
              | limit =>
                simp only [hot, hbt]
                simp [hmbpr]
              | market =>
                rcases hdisj with hdisj | hdisj
                · rw [hot] at hdisj
                  cases hdisj
                · rw [hmbot, hbt] at hdisj
                  cases hdisj
          have haccext : ∀ (o2 : Order) (b3 : OrderBook) (acc2 : List Trade),
              (∀ o ∈ ordersOf b3.bids, ∃ m ∈ orig,
                m.id = o.id ∧ m.price = o.price ∧ m.order_type = o.order_type) →
              (∀ t ∈ acc2, ∃ m ∈ orig, makerIdOf Side.sell t = m.id ∧
                ((ord.order_type = OrderType.market ∨ m.order_type = OrderType.limit) →
                  t.price = m.price)) →
              matchLoop fuel o2 b3 acc2 = LoopResult.ok ord' book' tr →
              o2.side = Side.sell → o2.order_type = ord.order_type →
              ∀ t ∈ tr, ∃ m ∈ orig, makerIdOf Side.sell t = m.id ∧
                ((ord.order_type = OrderType.market ∨ m.order_type = OrderType.limit) →
                  t.price = m.price) := by
            intro o2 b3 acc2 hrel3 hacc2 h3 hs2 hot2
            have hr : ∀ o ∈ oppOrders o2 b3, ∃ m ∈ orig,
                m.id = o.id ∧ m.price = o.price ∧ m.order_type = o.order_type := by
              intro o ho
              simp only [oppOrders, hs2] at ho
              exact hrel3 o ho
            have ha : ∀ t ∈ acc2, ∃ m ∈ orig, makerIdOf o2.side t = m.id ∧
                ((o2.order_type = OrderType.market ∨ m.order_type = OrderType.limit) →
                  t.price = m.price) := by
              intro t ht
              rw [hs2, hot2]
              exact hacc2 t ht
            have hmain := ih hr ha h3
            intro t ht
            have hthis := hmain t ht
            rw [hs2, hot2] at hthis
            exact hthis
          have haccnew : ∀ t ∈ acc ++ [Trade.mk best.id ord.id
                (match ord.order_type, best.order_type with
                  | OrderType.market, _ => best.price
                  | _, OrderType.market => ord.price
                  | OrderType.limit, OrderType.limit => best.price)
                (min ord.quantity best.quantity)],
              ∃ m ∈ orig, makerIdOf Side.sell t = m.id ∧
                ((ord.order_type = OrderType.market ∨ m.order_type = OrderType.limit) →
                  t.price = m.price) := by
            intro t ht
            rcases List.mem_append.mp ht with ht | ht
            · exact hacc t ht
            · simp only [List.mem_singleton] at ht
              subst ht
              exact htrade
          by_cases hre : 0 < best.quantity - min ord.quantity best.quantity
          · rw [if_pos hre] at h
            have hrel3 : ∀ o ∈ ordersOf (b2.add_order { best with
                quantity := best.quantity - min ord.quantity best.quantity }).bids,
                ∃ m ∈ orig, m.id = o.id ∧ m.price = o.price
                  ∧ m.order_type = o.order_type := by
              intro o ho
              cases hbsd : best.side with
              | sell =>
                have heq : (b2.add_order { best with
                    quantity := best.quantity - min ord.quantity best.quantity }).bids
                    = b2.bids :=
                  (add_order_parts b2 _).2 hbsd
                rw [heq] at ho
                exact hrelb2 o ho
              | buy =>
                have hbsd2 : ({ best with
                    quantity := best.quantity - min ord.quantity best.quantity } : Order).side
                    = Side.buy := hbsd
                have heq : (b2.add_order { best with
                    quantity := best.quantity - min ord.quantity best.quantity }).bids
                    = levelInsert best.price { best with
                        quantity := best.quantity - min ord.quantity best.quantity }
                        b2.bids := by
                  simp [OrderBook.add_order, hbsd, hbsd2]
                rw [heq] at ho
                have hmem2 := (ordersOf_levelInsert _ _ _).mem_iff.mp ho
                simp only [List.mem_cons] at hmem2
                rcases hmem2 with rfl | ho2
                · exact ⟨mb, hmb, hmbid, hmbpr, hmbot⟩
                · exact hrelb2 o ho2
            by_cases hq : ord.quantity - min ord.quantity best.quantity = 0
            · rw [if_pos hq] at h
              simp only [LoopResult.ok.injEq] at h
              obtain ⟨rfl, rfl, rfl⟩ := h
              exact haccnew
            · rw [if_neg hq] at h
              exact haccext _ _ _ hrel3 haccnew h rfl rfl
          · rw [if_neg hre] at h
            by_cases hq : ord.quantity - min ord.quantity best.quantity = 0
            · rw [if_pos hq] at h
              simp only [LoopResult.ok.injEq] at h
              obtain ⟨rfl, rfl, rfl⟩ := h
              exact haccnew
            · rw [if_neg hq] at h
              exact haccext _ _ _ hrelb2 haccnew h rfl rfl
        · rw [if_pos hcm] at h
          simp only [LoopResult.ok.injEq] at h
          obtain ⟨rfl, rfl, rfl⟩ := h
          exact hacc

/-! ### Submission-level lemmas -/

/-- `submit_order` always completes: the loop neither panics nor runs out of
the fuel the model allots. -/
theorem submit_order_isSome (e : MatchingEngine) (x : Order) :
    (e.submit_order x).isSome := by
  rw [MatchingEngine.submit_order]
  cases hres : matchLoop (oppositeCount x e.order_book + 1) x e.order_book [] with
  | ok ord' book' tr => simp
  | panicked => exact absurd hres (matchLoop_no_panic _ _ _ _)
  | outOfFuel => exact absurd hres (matchLoop_fuel (Nat.lt_succ_of_le (Nat.le_refl _)))

/-- What a successful submission is made of. -/
theorem submit_order_parts {e e' : MatchingEngine} {x : Order} {tr : List Trade}
    (h : e.submit_order x = some (tr, e')) :
    ∃ ord' book',
      matchLoop (oppositeCount x e.order_book + 1) x e.order_book []
        = LoopResult.ok ord' book' tr
      ∧ e'.order_book = (if 0 < ord'.quantity ∧ ord'.order_type = OrderType.limit
          then book'.add_order ord' else book')
      ∧ e'.trades = tr.foldl pushBounded e.trades := by
  rw [MatchingEngine.submit_order] at h
  cases hres : matchLoop (oppositeCount x e.order_book + 1) x e.order_book [] with
  | ok ord' book' tr0 =>
    rw [hres] at h
    simp only [Option.some.injEq, Prod.mk.injEq] at h
    obtain ⟨rfl, rfl⟩ := h
    exact ⟨ord', book', rfl, rfl, rfl⟩
  | panicked =>
    rw [hres] at h
    simp at h
  | outOfFuel =>
    rw [hres] at h
    simp at h

/-- A successful submission preserves the book invariants. -/
theorem Good_submit {e e' : MatchingEngine} {x : Order} {tr : List Trade}
    (hg : e.order_book.Good) (h : e.submit_order x = some (tr, e')) :
    e'.order_book.Good := by
  obtain ⟨ord', book', hloop, hbook, _⟩ := submit_order_parts h
  obtain ⟨hg', hsafe⟩ := matchLoop_good hg hloop
  rw [hbook]
  by_cases hc : 0 < ord'.quantity ∧ ord'.order_type = OrderType.limit
  · rw [if_pos hc]
    exact Good_add_order hg' (hsafe (Nat.pos_iff_ne_zero.mp hc.1) hc.2)
  · rw [if_neg hc]
    exact hg'

/-! ### Cancellation lemmas -/

theorem removeById_subset (id : String) (q : List Order) :
    ∀ x ∈ removeById id q, x ∈ q := by
  induction q with
  | nil => simp [removeById]
  | cons y ys ih =>
    intro x hx
    by_cases hy : y.id = id
    · simp only [removeById, if_pos hy] at hx
      exact List.mem_cons_of_mem _ hx
    · simp only [removeById, if_neg hy] at hx
      rcases List.mem_cons.mp hx with rfl | hx
      · exact List.mem_cons_self _ _
      · exact List.mem_cons_of_mem _ (ih x hx)

theorem btreeGet_mem {p : Nat} {m : PriceMap} {q : List Order}
    (h : btreeGet p m = some q) : (p, q) ∈ m := by
  induction m with
  | nil => simp [btreeGet] at h
  | cons e rest ih =>
    obtain ⟨k, w⟩ := e
    by_cases hk : k = p
    · simp only [btreeGet, if_pos hk, Option.some.injEq] at h
      subst hk
      subst h
      exact List.mem_cons_self _ _
    · simp only [btreeGet, if_neg hk] at h
      exact List.mem_cons_of_mem _ (ih h)

theorem btreeSet_keys_mem {p : Nat} {q' : List Order} {m : PriceMap} :
    ∀ l ∈ btreeSet p q' m, ∃ l2 ∈ m, l.1 = l2.1 := by
  induction m with
  | nil => simp [btreeSet]
  | cons e rest ih =>
    obtain ⟨k, w⟩ := e
    intro l hl
    by_cases hk : k = p
    · simp only [btreeSet, if_pos hk] at hl
      rcases List.mem_cons.mp hl with rfl | hl
      · exact ⟨(k, w), List.mem_cons_self _ _, rfl⟩
      · exact ⟨l, List.mem_cons_of_mem _ hl, rfl⟩
    · simp only [btreeSet, if_neg hk] at hl
      rcases List.mem_cons.mp hl with rfl | hl
      · exact ⟨(k, w), List.mem_cons_self _ _, rfl⟩
      · obtain ⟨l2, hl2, hkey⟩ := ih l hl
        exact ⟨l2, List.mem_cons_of_mem _ hl2, hkey⟩

theorem ordersOf_btreeSet_subset {p : Nat} {q' : List Order} {m : PriceMap} :
    ∀ x ∈ ordersOf (btreeSet p q' m), x ∈ q' ∨ x ∈ ordersOf m := by
  induction m with
  | nil => simp [btreeSet, ordersOf]
  | cons e rest ih =>
    obtain ⟨k, w⟩ := e
    intro x hx
    by_cases hk : k = p
    · simp only [btreeSet, if_pos hk, ordersOf, List.mem_append] at hx
      rcases hx with hx | hx
      · exact Or.inl hx
      · exact Or.inr (by simp [ordersOf, hx])
    · simp only [btreeSet, if_neg hk, ordersOf, List.mem_append] at hx
      rcases hx with hx | hx
      · exact Or.inr (by simp [ordersOf, hx])
      · rcases ih x hx with hx | hx
        · exact Or.inl hx
        · exact Or.inr (by simp [ordersOf, hx])

/-- Removing one order from the queue found at a key keeps the side well
formed. -/
theorem WFside_btreeSet_removeById {p : Nat} {m : PriceMap} {q : List Order}
    (id : String) (hget : btreeGet p m = some q) (hw : WFside m) :
    WFside (btreeSet p (removeById id q) m) := by
  induction m with
  | nil => simp [btreeGet] at hget
  | cons e rest ih =>
    obtain ⟨k, w⟩ := e
    by_cases hk : k = p
    · simp only [btreeGet, if_pos hk, Option.some.injEq] at hget
      subst hget
      simp only [btreeSet, if_pos hk]
      constructor
      · exact List.pairwise_cons.mpr
          ⟨(List.pairwise_cons.mp hw.1).1, (List.pairwise_cons.mp hw.1).2⟩
      · intro l hl x hx
        rcases List.mem_cons.mp hl with rfl | hl
        · exact hw.2 (k, w) (List.mem_cons_self _ _) x (removeById_subset id w x hx)
        · exact hw.2 l (List.mem_cons_of_mem _ hl) x hx
    · simp only [btreeGet, if_neg hk] at hget
      simp only [btreeSet, if_neg hk]
      have hwr := ih hget (WFside_tail hw)
      constructor
      · refine List.pairwise_cons.mpr ⟨?_, hwr.1⟩
        intro y hy
        obtain ⟨l2, hl2, hkey⟩ := btreeSet_keys_mem y hy
        rw [hkey]
        exact (List.pairwise_cons.mp hw.1).1 l2 hl2
      · intro l hl x hx
        rcases List.mem_cons.mp hl with rfl | hl
        · exact hw.2 (k, w) (List.mem_cons_self _ _) x hx
        · exact hwr.2 l hl x hx

/-- Cancellation preserves the book invariants. -/
theorem Good_cancel {b : OrderBook} (id : String) (hg : b.Good) :
    (b.cancel_order id).2.Good := by
  rw [OrderBook.cancel_order]
  rcases hmg : mapGet id b.order_map with _ | v
  · simp only []
    exact hg
  · obtain ⟨q0, price, side⟩ := v
    cases side with
    | buy =>
      simp only []
      rcases hbg : btreeGet price b.bids with _ | q
      · simp only []
        exact hg
      · simp only []
        by_cases hany : q.any (fun e => e.id = id) = true
        · rw [if_pos hany]
          simp only []
          have hsub : ∀ x ∈ ordersOf (btreeSet price (removeById id q) b.bids),
              x ∈ ordersOf b.bids := by
            intro x hx
            rcases ordersOf_btreeSet_subset x hx with hx | hx
            · have hxq : x ∈ q := removeById_subset id q x hx
              exact mem_ordersOf.mpr ⟨(price, q), btreeGet_mem hbg, hxq⟩
            · exact hx
          refine ⟨⟨⟨(WFside_btreeSet_removeById id hbg hg.1.1).1,
            (WFside_btreeSet_removeById id hbg hg.1.1).2⟩, hg.1.2⟩, ?_, ?_⟩
          · refine SidesOK_mono b _ ?_ ?_ hg.2.1
            · exact hsub
            · intro x hx; exact hx
          · refine NoCross_mono b _ ?_ ?_ hg.2.2
            · exact hsub
            · intro x hx; exact hx
        · rw [if_neg hany]
          simp only []
          exact hg
    | sell =>
      simp only []
      rcases hbg : btreeGet price b.asks with _ | q
      · simp only []
        exact hg
      · simp only []
        by_cases hany : q.any (fun e => e.id = id) = true
        · rw [if_pos hany]
          simp only []
          have hsub : ∀ x ∈ ordersOf (btreeSet price (removeById id q) b.asks),
              x ∈ ordersOf b.asks := by
            intro x hx
            rcases ordersOf_btreeSet_subset x hx with hx | hx
            · have hxq : x ∈ q := removeById_subset id q x hx
              exact mem_ordersOf.mpr ⟨(price, q), btreeGet_mem hbg, hxq⟩
            · exact hx
          refine ⟨⟨hg.1.1, ⟨(WFside_btreeSet_removeById id hbg hg.1.2).1,
            (WFside_btreeSet_removeById id hbg hg.1.2).2⟩⟩, ?_, ?_⟩
          · refine SidesOK_mono b _ ?_ ?_ hg.2.1
            · intro x hx; exact hx
            · exact hsub
          · refine NoCross_mono b _ ?_ ?_ hg.2.2
            · intro x hx; exact hx
            · exact hsub
        · rw [if_neg hany]
          simp only []
          exact hg

/-! ### Reachable engines -/

theorem Good_new : OrderBook.new.Good :=
  ⟨by decide, by decide, by decide⟩

/-- Every engine reachable by submissions and cancellations keeps the book
invariants. -/
theorem Good_runOps {ops : List Op} {e e' : MatchingEngine}
    (hg : e.order_book.Good) (h : runOps ops e = some e') :
    e'.order_book.Good := by
  induction ops generalizing e with
  | nil =>
    simp only [runOps, Option.some.injEq] at h
    subst h
    exact hg
  | cons op ops ih =>
    cases op with
    | submit o =>
      rw [runOps] at h
      rcases hsub : e.submit_order o with _ | r
      · rw [hsub] at h
        simp at h
      · obtain ⟨tr, e2⟩ := r
        rw [hsub] at h
        exact ih (Good_submit hg hsub) h
    | cancel id =>
      rw [runOps] at h
      exact ih (Good_cancel id hg) h

/-! ### Snapshot ordering -/

/-- On a well-formed, timestamp-sorted side, the concatenated level queues are
sorted by ascending price with entry-time tie-break. -/
theorem pairwise_ordersOf {m : PriceMap} (hw : WFside m) (hts : levelsTsSorted m) :
    List.Pairwise ascendingPriceTime (ordersOf m) := by
  induction m with
  | nil => simp [ordersOf]
  | cons e rest ih =>
    obtain ⟨k, q⟩ := e
    simp only [ordersOf]
    rw [List.pairwise_append]
    refine ⟨?_, ih (WFside_tail hw)
      (fun l hl => hts l (List.mem_cons_of_mem _ hl)), ?_⟩
    · have hq := hts (k, q) (List.mem_cons_self _ _)
      refine List.Pairwise.imp_of_mem ?_ hq
      intro a b ha hb hab
      right
      constructor
      · rw [hw.2 (k, q) (List.mem_cons_self _ _) a ha,
          hw.2 (k, q) (List.mem_cons_self _ _) b hb]
      · exact hab
    · intro a ha b hb
      left
      obtain ⟨l, hl, hbl⟩ := mem_ordersOf.mp hb
      rw [hw.2 (k, q) (List.mem_cons_self _ _) a ha,
        hw.2 l (List.mem_cons_of_mem _ hl) b hbl]
      exact (List.pairwise_cons.mp hw.1).1 l hl

/-! ### Zero-quantity submissions -/

theorem sumQ_zero {l : List Trade} (h : sumQ l = 0) :
    ∀ t ∈ l, t.quantity = 0 := by
  intro t ht
  have := List.sum_eq_zero_iff.mp h (t.quantity) (List.mem_map_of_mem _ ht)
  exact this

/-- A zero-quantity taker leaves the loop within one iteration, so at most one
trade is produced. -/
theorem matchLoop_zero_step {fuel : Nat} {x ord' : Order}
    {book book' : OrderBook} {acc tr : List Trade} (h0 : x.quantity = 0)
    (h : matchLoop (fuel + 1) x book acc = LoopResult.ok ord' book' tr) :
    tr = acc ∨ ∃ t, tr = acc ++ [t] := by
  rw [matchLoop] at h
  cases hside : x.side with
  | buy =>
    rw [hside] at h
    rcases hpk : book.peek_best_sell with ⟨ro, book1⟩
    rw [hpk] at h
    cases ro with
    | none =>
      simp only [LoopResult.ok.injEq] at h
      exact Or.inl h.2.2.symm
    | some best =>
      simp only [] at h
      by_cases hcm : x.can_match best = true
      · rw [if_neg (not_not_intro hcm)] at h
        rcases hpp : book1.pop_best_sell with ⟨po, book2⟩
        rw [hpp] at h
        cases po with
        | none => simp at h
        | some opp =>
          simp only [] at h
          rw [if_pos (by omega : x.quantity - min x.quantity best.quantity = 0)] at h
          simp only [LoopResult.ok.injEq] at h
          exact Or.inr ⟨_, h.2.2.symm⟩
      · rw [if_pos hcm] at h
        simp only [LoopResult.ok.injEq] at h
        exact Or.inl h.2.2.symm
  | sell =>
    rw [hside] at h
    rcases hpk : book.peek_best_buy with ⟨ro, book1⟩
    rw [hpk] at h
    cases ro with
    | none =>
      simp only [LoopResult.ok.injEq] at h
      exact Or.inl h.2.2.symm
    | some best =>
      simp only [] at h
      by_cases hcm : x.can_match best = true
      · rw [if_neg (not_not_intro hcm)] at h
        rcases hpp : book1.pop_best_buy with ⟨po, book2⟩
        rw [hpp] at h
        cases po with
        | none => simp at h
        | some opp =>
          simp only [] at h
          rw [if_pos (by omega : x.quantity - min x.quantity best.quantity = 0)] at h
          simp only [LoopResult.ok.injEq] at h
          exact Or.inr ⟨_, h.2.2.symm⟩
      · rw [if_pos hcm] at h
        simp only [LoopResult.ok.injEq] at h
        exact Or.inl h.2.2.symm

/-! ### Index lemmas -/

theorem mapGet_mapInsert (id id' : String) (v : Nat × Nat × Side)
    (m : List (String × (Nat × Nat × Side))) :
    mapGet id (mapInsert id' v m) =
      if id' = id then some v else mapGet id m := by
  induction m with
  | nil =>
    by_cases hi : id' = id
    · simp [mapInsert, mapGet, hi]
    · simp [mapInsert, mapGet, hi]
  | cons e rest ih =>
    obtain ⟨k, w⟩ := e
    by_cases hk : k = id'
    · subst hk
      by_cases hi : k = id
      · simp [mapInsert, mapGet, hi]
      · simp [mapInsert, mapGet, hi]
    · by_cases hi : k = id
      · subst hi
        have : ¬ (id' = k) := fun hc => hk hc.symm
        simp [mapInsert, mapGet, hk, this]
      · simp [mapInsert, mapGet, hk, hi, ih]

theorem IndexComplete_add_order {b : OrderBook} (o : Order)
    (h : IndexComplete b) : IndexComplete (b.add_order o) := by
  intro x hx
  cases hside : o.side with
  | buy =>
    have hb : b.add_order o =
        { b with bids := levelInsert o.price o b.bids,
                 order_map := mapInsert o.id (o.quantity, o.price, o.side) b.order_map } := by
      simp [OrderBook.add_order, hside]
    rw [hb] at hx ⊢
    simp only [List.mem_append] at hx
    rcases hx with hx | hx
    · have := (ordersOf_levelInsert o.price o b.bids).mem_iff.mp hx
      simp only [List.mem_cons] at this
      rcases this with rfl | hx2
      · rw [mapGet_mapInsert]
        simp
      · rw [mapGet_mapInsert]
        by_cases hi : o.id = x.id
        · simp [hi]
        · simp only [hi, if_neg hi]
          exact h x (List.mem_append.mpr (Or.inl hx2))
    · rw [mapGet_mapInsert]
      by_cases hi : o.id = x.id
      · simp [hi]
      · simp only [hi, if_neg hi]
        exact h x (List.mem_append.mpr (Or.inr hx))
  | sell =>
    have hb : b.add_order o =
        { b with asks := levelInsert o.price o b.asks,
                 order_map := mapInsert o.id (o.quantity, o.price, o.side) b.order_map } := by
      simp [OrderBook.add_order, hside]
    rw [hb] at hx ⊢
    simp only [List.mem_append] at hx
    rcases hx with hx | hx
    · rw [mapGet_mapInsert]
      by_cases hi : o.id = x.id
      · simp [hi]
      · simp only [hi, if_neg hi]
        exact h x (List.mem_append.mpr (Or.inl hx))
    · have := (ordersOf_levelInsert o.price o b.asks).mem_iff.mp hx
      simp only [List.mem_cons] at this
      rcases this with rfl | hx2
      · rw [mapGet_mapInsert]
        simp
      · rw [mapGet_mapInsert]
        by_cases hi : o.id = x.id
        · simp [hi]
        · simp only [hi, if_neg hi]
          exact h x (List.mem_append.mpr (Or.inr hx2))

theorem IndexComplete_pop_best_buy {b : OrderBook} (h : IndexComplete b) :
    IndexComplete (b.pop_best_buy).2 := by
  rcases hp : popBestHigh b.bids with ⟨r, m'⟩
  have hb : (b.pop_best_buy).2 = { b with bids := m' } := by
    simp [OrderBook.pop_best_buy, hp]
  rw [hb]
  intro x hx
  simp only [List.mem_append] at hx
  rcases hx with hx | hx
  · exact h x (List.mem_append.mpr (Or.inl (popBestHigh_subset hp x hx)))
  · exact h x (List.mem_append.mpr (Or.inr hx))

theorem IndexComplete_pop_best_sell {b : OrderBook} (h : IndexComplete b) :
    IndexComplete (b.pop_best_sell).2 := by
  rcases hp : popBestLow b.asks with ⟨r, m'⟩
  have hb : (b.pop_best_sell).2 = { b with asks := m' } := by
    simp [OrderBook.pop_best_sell, hp]
  rw [hb]
  intro x hx
  simp only [List.mem_append] at hx
  rcases hx with hx | hx
  · exact h x (List.mem_append.mpr (Or.inl hx))
  · exact h x (List.mem_append.mpr (Or.inr (popBestLow_subset hp x hx)))

/-! ### Requeue position lemmas -/

theorem insertByTimestamp_last (o : Order) (q : List Order)
    (h : ∀ x ∈ q, x.timestamp ≤ o.timestamp) :
    insertByTimestamp o q = q ++ [o] := by
  induction q with
  | nil => rfl
  | cons x xs ih =>
    have hx : ¬ o.timestamp < x.timestamp :=
      Nat.not_lt_of_le (h x (List.mem_cons_self _ _))
    simp only [insertByTimestamp, if_neg hx, List.cons_append]
    rw [ih (fun y hy => h y (List.mem_cons_of_mem _ hy))]

theorem btreeGet_none_of_lt {p : Nat} {m : PriceMap}
    (h : ∀ l ∈ m, p < l.1) : btreeGet p m = none := by
  induction m with
  | nil => rfl
  | cons e rest ih =>
    obtain ⟨k, w⟩ := e
    have : k ≠ p := by
      have := h (k, w) (List.mem_cons_self _ _)
      omega
    simp only [btreeGet, if_neg this]
    exact ih (fun l hl => h l (List.mem_cons_of_mem _ hl))

theorem btreeGet_levelInsert {p : Nat} {o : Order} {m : PriceMap}
    {q : List Order} (hs : sortedKeys m) (hget : btreeGet p m = some q) :
    btreeGet p (levelInsert p o m) = some (insertByTimestamp o q) := by
  induction m with
  | nil => simp [btreeGet] at hget
  | cons e rest ih =>
    obtain ⟨k, w⟩ := e
    by_cases hk : k = p
    · subst hk
      simp [btreeGet] at hget
      subst hget
      simp only [levelInsert, Nat.lt_irrefl, if_neg (Nat.lt_irrefl k), if_pos rfl]
      simp [btreeGet]
    · simp only [btreeGet, if_neg hk] at hget
      by_cases hlt : p < k
      · exfalso
        have : btreeGet p rest = none := by
          refine btreeGet_none_of_lt ?_
          intro l hl
          exact Nat.lt_trans hlt ((List.pairwise_cons.mp hs).1 l hl)
        rw [this] at hget
        cases hget
      · have hne : p ≠ k := fun hc => hk hc.symm
        simp only [levelInsert, if_neg hlt, if_neg hne]
        simp only [btreeGet, if_neg hk]
        exact ih (List.pairwise_cons.mp hs).2 hget

/-! ## Claim theorems -/

/-- C1 (No crossed book): after any sequence of `submit_order` and
`cancel_order` calls starting from an empty engine, with all submitted orders
of positive quantity, every resting buy's price is strictly below every
resting sell's price. -/
theorem C1_no_crossed_book (ops : List Op) (hpos : submitsPositive ops)
    (e : MatchingEngine) (h : runOps ops MatchingEngine.new = some e) :
    e.order_book.NoCross :=
  (Good_runOps Good_new h).2.2

/-- Witness for C1 at a concrete two-submission history. -/
theorem C1_no_crossed_book_witness : c1engine.order_book.NoCross :=
  C1_no_crossed_book c1ops (by decide) c1engine (by decide)

/-- C2 (Quantity conservation): one `submit_order(x)` produces trades whose
quantities sum to at most `x.quantity`, with equality exactly when the taker
was fully filled (and hence not rested); and every id other than the taker's
loses from the book exactly the summed quantity of the trades in which it was
the maker. -/
theorem C2_quantity_conservation (e e' : MatchingEngine) (x ord' : Order)
    (book' : OrderBook) (tr : List Trade)
    (hloop : matchLoop (oppositeCount x e.order_book + 1) x e.order_book []
      = LoopResult.ok ord' book' tr)
    (h : e.submit_order x = some (tr, e')) :
    sumQ tr ≤ x.quantity
    ∧ (sumQ tr = x.quantity ↔
        (ord'.quantity = 0
          ∧ ¬(0 < ord'.quantity ∧ ord'.order_type = OrderType.limit)))
    ∧ ∀ id, id ≠ x.id →
        e.order_book.qtyOf id = e'.order_book.qtyOf id + makerSum x.side id tr := by
  obtain ⟨hsum, hle⟩ := matchLoop_sumQ hloop
  simp only [sumQ, List.map_nil, List.sum_nil] at hsum
  refine ⟨by simp only [sumQ]; omega, ⟨?_, ?_⟩, ?_⟩
  · intro hq
    simp only [sumQ] at hq
    have h0 : ord'.quantity = 0 := by omega
    exact ⟨h0, fun hc => by omega⟩
  · rintro ⟨h0, _⟩
    simp only [sumQ]
    omega
  · intro id hid
    obtain ⟨ord2, book2, hloop2, hbook, _⟩ := submit_order_parts h
    rw [hloop] at hloop2
    simp only [LoopResult.ok.injEq] at hloop2
    obtain ⟨rfl, rfl, _⟩ := hloop2
    have hq := matchLoop_qtyOf hloop id
    simp only [makerSum, sumQ, List.filter_nil, List.map_nil, List.sum_nil] at hq
    rw [hbook]
    have hfid : ord'.id = x.id := (matchLoop_fields hloop).1
    by_cases hc : 0 < ord'.quantity ∧ ord'.order_type = OrderType.limit
    · rw [if_pos hc, qtyOf_add_order, hfid,
        if_neg (fun hc2 => hid hc2.symm)]
      simp only [makerSum, sumQ]
      omega
    · rw [if_neg hc]
      simp only [makerSum, sumQ]
      omega

/-- Witness for C2 at a concrete partially-filling submission. -/
theorem C2_quantity_conservation_witness :
    sumQ [(⟨"T", "M", 100, 4⟩ : Trade)] ≤ c2taker.quantity
    ∧ (sumQ [(⟨"T", "M", 100, 4⟩ : Trade)] = c2taker.quantity ↔
        (c2resid.quantity = 0
          ∧ ¬(0 < c2resid.quantity ∧ c2resid.order_type = OrderType.limit)))
    ∧ ∀ id, id ≠ c2taker.id →
        c2engine.order_book.qtyOf id
          = c2post.order_book.qtyOf id
            + makerSum c2taker.side id [⟨"T", "M", 100, 4⟩] :=
  C2_quantity_conservation c2engine c2post c2taker c2resid c2book
    [⟨"T", "M", 100, 4⟩] (by decide) (by decide)

/-- C3 (Execution price rule): every trade emitted by `submit_order` has a
maker among the orders resting on the opposite side at submission time; when
the taker is a market order, or both sides are limit orders, the trade price
is that maker's resting price. -/
theorem C3_execution_price (e e' : MatchingEngine) (x : Order) (tr : List Trade)
    (h : e.submit_order x = some (tr, e')) (t : Trade) (ht : t ∈ tr) :
    ∃ m ∈ oppOrders x e.order_book, makerIdOf x.side t = m.id ∧
      ((x.order_type = OrderType.market ∨ m.order_type = OrderType.limit) →
        t.price = m.price) := by
  obtain ⟨ord', book', hloop, _, _⟩ := submit_order_parts h
  have hrel : ∀ o ∈ oppOrders x e.order_book, ∃ m ∈ oppOrders x e.order_book,
      m.id = o.id ∧ m.price = o.price ∧ m.order_type = o.order_type :=
    fun o ho => ⟨o, ho, rfl, rfl, rfl⟩
  have hacc : ∀ t ∈ ([] : List Trade), ∃ m ∈ oppOrders x e.order_book,
      makerIdOf x.side t = m.id ∧
      ((x.order_type = OrderType.market ∨ m.order_type = OrderType.limit) →
        t.price = m.price) := by simp
  exact matchLoop_maker_origin hrel hacc hloop t ht

/-- Witness for C3 at a concrete crossing submission. -/
theorem C3_execution_price_witness :
    ∃ m ∈ oppOrders c3taker c3engine.order_book,
      makerIdOf c3taker.side (⟨"U", "N", 100, 4⟩ : Trade) = m.id ∧
      ((c3taker.order_type = OrderType.market ∨ m.order_type = OrderType.limit) →
        (⟨"U", "N", 100, 4⟩ : Trade).price = m.price) :=
  C3_execution_price c3engine c3post c3taker [⟨"U", "N", 100, 4⟩]
    (by decide) ⟨"U", "N", 100, 4⟩ (by decide)

/-- C4 counterexample: with buys resting at prices 10 and 200, the snapshot's
first element is the price-10 order, not the maximum-price one, refuting
"sorted best first" for the buy side. -/
theorem C4_counterexample :
    c4book.get_buy_orders.head?
      = some ⟨"1", 5, 10, 1, Side.buy, OrderType.limit⟩
    ∧ (⟨"2", 5, 200, 2, Side.buy, OrderType.limit⟩ : Order) ∈ c4book.get_buy_orders
    ∧ ∃ o ∈ c4book.get_buy_orders,
        (⟨"1", 5, 10, 1, Side.buy, OrderType.limit⟩ : Order).price < o.price := by
  decide

/-- C4 (amended): on a well-formed book both snapshots emit each side in
ascending price order with entry-time tie-break — best first for sells, but
worst first for buys (the first buy has the minimum price). -/
theorem C4_snapshot_order (b : OrderBook) (h1 : WFside b.asks)
    (h2 : levelsTsSorted b.asks) (h3 : WFside b.bids)
    (h4 : levelsTsSorted b.bids) :
    List.Pairwise ascendingPriceTime b.get_sell_orders
    ∧ List.Pairwise ascendingPriceTime b.get_buy_orders :=
  ⟨pairwise_ordersOf h1 h2, pairwise_ordersOf h3 h4⟩

/-- Witness for the amended C4 at a concrete two-level book. -/
theorem C4_snapshot_order_witness :
    List.Pairwise ascendingPriceTime c4book.get_sell_orders
    ∧ List.Pairwise ascendingPriceTime c4book.get_buy_orders :=
  C4_snapshot_order c4book (by decide) (by decide) (by decide) (by decide)

/-- C5 counterexample: a zero-quantity buy against a crossing resting sell is
not rejected — `submit_order` emits a quantity-0 trade and appends it to the
tape. -/
theorem C5_counterexample :
    c5engine.submit_order c5taker = some ([⟨"Z", "S", 100, 0⟩], c5post)
    ∧ ([(⟨"Z", "S", 100, 0⟩ : Trade)] ≠ ([] : List Trade))
    ∧ c5post.trades ≠ c5engine.trades := by
  decide

/-- C5 (amended): `submit_order` performs no zero-quantity validation; a
zero-quantity order produces at most one trade, any trade it produces has
quantity 0, and the order itself is never rested (the post-submission book is
exactly the loop's book). -/
theorem C5_zero_quantity (e e' : MatchingEngine) (x : Order) (tr : List Trade)
    (h0 : x.quantity = 0) (h : e.submit_order x = some (tr, e')) :
    tr.length ≤ 1 ∧ (∀ t ∈ tr, t.quantity = 0)
    ∧ ∀ ord' book',
        matchLoop (oppositeCount x e.order_book + 1) x e.order_book []
          = LoopResult.ok ord' book' tr → e'.order_book = book' := by
  obtain ⟨ord2, book2, hloop, hbook, _⟩ := submit_order_parts h
  obtain ⟨hsum, _⟩ := matchLoop_sumQ hloop
  simp only [sumQ, List.map_nil, List.sum_nil] at hsum
  have htr0 : sumQ tr = 0 := by simp only [sumQ]; omega
  have hq2 : ord2.quantity = 0 := by omega
  refine ⟨?_, fun t ht => sumQ_zero htr0 t ht, ?_⟩
  · rcases matchLoop_zero_step h0 hloop with rfl | ⟨t, rfl⟩
    · simp
    · simp
  · intro ord' book' hloop'
    rw [hloop] at hloop'
    simp only [LoopResult.ok.injEq] at hloop'
    obtain ⟨rfl, rfl, _⟩ := hloop'
    rw [hbook, if_neg]
    rintro ⟨hlt, _⟩
    omega

/-- Witness for the amended C5 at the concrete zero-quantity submission. -/
theorem C5_zero_quantity_witness :
    [(⟨"Z", "S", 100, 0⟩ : Trade)].length ≤ 1
    ∧ (∀ t ∈ [(⟨"Z", "S", 100, 0⟩ : Trade)], t.quantity = 0)
    ∧ ∀ ord' book',
        matchLoop (oppositeCount c5taker c5engine.order_book + 1) c5taker
          c5engine.order_book [] = LoopResult.ok ord' book' [⟨"Z", "S", 100, 0⟩]
          → c5post.order_book = book' :=
  C5_zero_quantity c5engine c5post c5taker [⟨"Z", "S", 100, 0⟩]
    (by decide) (by decide)

/-- C6 counterexample: after `pop_best_buy` returns the only resting order,
its id is still a key of `order_map` although no FIFO holds it — the index
equivalence and the "pop removes the id" clause both fail. -/
theorem C6_counterexample :
    c6book.pop_best_buy
      = (some ⟨"1", 5, 10, 1, Side.buy, OrderType.limit⟩, c6popped)
    ∧ mapGet "1" c6popped.order_map = some (5, 10, Side.buy)
    ∧ ordersOf c6popped.bids ++ ordersOf c6popped.asks = [] := by
  decide

/-- C6 (amended): ids of orders present in a FIFO are always keys of
`order_map` (maintained by `add_order` and the pops), but the converse fails:
`pop_best_buy` and `pop_best_sell` leave `order_map` entirely untouched, so
the popped order's id survives as a stale index entry. -/
theorem C6_index_agreement :
    (∀ b : OrderBook, (b.pop_best_buy).2.order_map = b.order_map
      ∧ (b.pop_best_sell).2.order_map = b.order_map)
    ∧ (∀ (b : OrderBook) (o : Order), IndexComplete b →
        IndexComplete (b.add_order o))
    ∧ (∀ b : OrderBook, IndexComplete b →
        IndexComplete (b.pop_best_buy).2 ∧ IndexComplete (b.pop_best_sell).2) :=
  ⟨fun _ => ⟨rfl, rfl⟩,
   fun _ o h => IndexComplete_add_order o h,
   fun _ h => ⟨IndexComplete_pop_best_buy h, IndexComplete_pop_best_sell h⟩⟩

/-- C7 counterexample: popping the only order of a price level leaves the now
empty level in the bids map when the call returns, refuting removal "before
that same call returns". -/
theorem C7_counterexample :
    c7book.pop_best_buy
      = (some ⟨"7", 3, 10, 1, Side.buy, OrderType.limit⟩, c7popped)
    ∧ btreeGet 10 c7popped.bids = some []
    ∧ c7popped.bids ≠ [] := by
  decide

/-- C7 (amended): empty price levels are removed lazily — each peek/pop
deletes the empty levels it meets at the best end of its side before
returning, and a pop that returns nothing leaves the side map empty — but the
level a pop itself empties survives until the next peek/pop reaches it. -/
theorem C7_lazy_level_removal :
    (∀ (k : Nat) (m : PriceMap),
      popBestLow ((k, []) :: m) = popBestLow m
      ∧ peekBestLow ((k, []) :: m) = peekBestLow m
      ∧ popBestHigh (m ++ [(k, [])]) = popBestHigh m
      ∧ peekBestHigh (m ++ [(k, [])]) = peekBestHigh m)
    ∧ (∀ (m m' : PriceMap), popBestLow m = (none, m') → m' = [])
    ∧ (∀ (m m' : PriceMap), popBestHigh m = (none, m') → m' = []) :=
  ⟨fun k m => ⟨rfl, rfl, popBestHigh_skip_empty k m, peekBestHigh_skip_empty k m⟩,
   fun _ _ h => (popBestLow_none h).2,
   fun _ _ h => (popBestHigh_none h).2⟩

/-- C8 counterexample: two sells rest at the same price with equal
timestamps; after a partial fill of the head maker, the re-added remainder is
inserted behind its equal-timestamp peer, not at the head of the FIFO. -/
theorem C8_counterexample :
    c8engine.submit_order c8taker = some ([⟨"T", "A", 1000, 4⟩], c8post)
    ∧ btreeGet 1000 c8post.order_book.asks
        = some [⟨"B", 10, 1000, 5, Side.sell, OrderType.limit⟩,
                ⟨"A", 6, 1000, 5, Side.sell, OrderType.limit⟩]
    ∧ (c8post.order_book.get_sell_orders).head?
        ≠ some ⟨"A", 6, 1000, 5, Side.sell, OrderType.limit⟩ := by
  decide

/-- C8 (amended): `add_order` inserts an order before exactly those queue
entries with a strictly greater timestamp: the re-added maker returns to the
head of its level's FIFO when every other order there has a strictly greater
entry time, and lands at the tail behind all orders with an equal or smaller
entry time. -/
theorem C8_requeue_position (b : OrderBook) (o : Order) (q : List Order)
    (hside : o.side = Side.sell) (hsorted : sortedKeys b.asks)
    (hget : btreeGet o.price b.asks = some q) :
    ((∀ x ∈ q, o.timestamp < x.timestamp) →
      btreeGet o.price (b.add_order o).asks = some (o :: q))
    ∧ ((∀ x ∈ q, x.timestamp ≤ o.timestamp) →
      btreeGet o.price (b.add_order o).asks = some (q ++ [o])) := by
  have hasks : (b.add_order o).asks = levelInsert o.price o b.asks := by
    simp [OrderBook.add_order, hside]
  rw [hasks]
  constructor
  · intro hts
    rw [btreeGet_levelInsert hsorted hget, insertByTimestamp_head o q hts]
  · intro hts
    rw [btreeGet_levelInsert hsorted hget, insertByTimestamp_last o q hts]

/-- Witness for the amended C8 at a concrete one-level ask queue. -/
theorem C8_requeue_position_witness :
    ((∀ x ∈ c8q, c8newOrder.timestamp < x.timestamp) →
      btreeGet c8newOrder.price (c8engine.order_book.add_order c8newOrder).asks
        = some (c8newOrder :: c8q))
    ∧ ((∀ x ∈ c8q, x.timestamp ≤ c8newOrder.timestamp) →
      btreeGet c8newOrder.price (c8engine.order_book.add_order c8newOrder).asks
        = some (c8q ++ [c8newOrder])) :=
  C8_requeue_position c8engine.order_book c8newOrder c8q
    (by decide) (by decide) (by decide)

/-- C9 (Peek/pop agreement, no panic): a pop immediately following a
successful peek on the same side returns that very order, the matching loop
never reaches its `unwrap` with `None`, and `submit_order` always returns. -/
theorem C9_peek_pop_agreement :
    (∀ (b b1 : OrderBook) (o : Order), b.peek_best_buy = (some o, b1) →
      (b1.pop_best_buy).1 = some o)
    ∧ (∀ (b b1 : OrderBook) (o : Order), b.peek_best_sell = (some o, b1) →
      (b1.pop_best_sell).1 = some o)
    ∧ (∀ (fuel : Nat) (ord : Order) (book : OrderBook) (acc : List Trade),
        matchLoop fuel ord book acc ≠ LoopResult.panicked)
    ∧ (∀ (e : MatchingEngine) (x : Order), (e.submit_order x).isSome) := by
  refine ⟨?_, ?_, matchLoop_no_panic, submit_order_isSome⟩
  · intro b b1 o h
    obtain ⟨b2, hb2⟩ := peek_pop_best_buy h
    rw [hb2]
  · intro b b1 o h
    obtain ⟨b2, hb2⟩ := peek_pop_best_sell h
    rw [hb2]

/-- C10 (Termination of matching): with every resting order of positive
quantity, the matching loop finishes within one iteration per resting
opposite order plus one — the fuel model never runs out — and `submit_order`
always completes. -/
theorem C10_matching_terminates (b : OrderBook) (tape : List Trade) (x : Order)
    (hpos : ∀ o ∈ ordersOf b.bids ++ ordersOf b.asks, 0 < o.quantity)
    (fuel : Nat) (hfuel : oppositeCount x b < fuel) :
    matchLoop fuel x b [] ≠ LoopResult.outOfFuel
    ∧ ((⟨b, tape⟩ : MatchingEngine).submit_order x).isSome :=
  ⟨matchLoop_fuel hfuel, submit_order_isSome _ _⟩

/-- Witness for C10 at a concrete one-order book. -/
theorem C10_matching_terminates_witness :
    matchLoop 2 c10taker c10book [] ≠ LoopResult.outOfFuel
    ∧ ((⟨c10book, []⟩ : MatchingEngine).submit_order c10taker).isSome :=
  C10_matching_terminates c10book [] c10taker (by decide) 2 (by decide)

end Ome
